import Mathlib

/-!
The program meroku: transcript segmentation and speaker resolution.

A shallow embedding of `internal/model/minutes.go` and `internal/model/memberlist.go`.

* A Go `string` is modelled by its sequence of runes (`List Char`); the inputs are taken to be
  valid UTF-8, which is what the HTML parser hands back.
* The regular expressions of the source are embedded as the functions they compute
  (`FindAllStringSubmatch`, `ReplaceAllString`, `Split`, `FindString`, `MatchString`), each written
  for the one pattern it is compiled from.
* A `*Speaker` is an address into a heap of `Speaker` values; the `map[string]*Speaker` of a
  `Minutes` is an association list from labels to addresses.
* The HTML tree is consumed through goquery; the embedding starts from what the selections
  return (the inner HTML of the selected paragraphs, the text of the heading).
* `sort.Sort` and `textdistance.JaroWinklerDistance` are library code; `Resolve` takes them as
  arguments. A run-time panic of Go is the value `none`.
* A roster table is the sequence of its rows, a row the sequence of its `th` and `td` cells
  with their texts; the identifiers drawn by `uuid.NewRandom` are an argument of the loader.
-/

namespace Meroku

/-- A Go string, as the sequence of its runes. -/
abbrev GoString := List Char

/-! ## Strings and the regular expressions of `minutes.go` -/

/-- Go's `unicode.IsSpace`: the code points with the Unicode White_Space property. -/
def isSpace (c : Char) : Bool :=
  let n := c.toNat
  (9 ≤ n && n ≤ 13) || n == 32 || n == 133 || n == 160 || n == 5760 ||
  (8192 ≤ n && n ≤ 8202) || n == 8232 || n == 8233 || n == 8239 || n == 8287 || n == 12288

/-- Go's `strings.TrimSpace`: the string without its leading and trailing white space. -/
def TrimSpace (s : GoString) : GoString :=
  ((s.dropWhile isSpace).reverse.dropWhile isSpace).reverse

/-- The separator matched by `brtag`, the pattern `(?m)<br\/>`. -/
def brtagText : GoString := ['<', 'b', 'r', '/', '>']

/-- The scan behind `brtag.Split`: `skip` counts the characters of a separator still to be
passed over, `cur` holds the current piece in reverse. -/
def brtagSplitAux (skip : Nat) (cur : GoString) : GoString → List GoString
  | [] => [cur.reverse]
  | c :: rest =>
    match skip with
    | k + 1 => brtagSplitAux k cur rest
    | 0 =>
      if brtagText.isPrefixOf (c :: rest) then cur.reverse :: brtagSplitAux 4 [] rest
      else brtagSplitAux 0 (c :: cur) rest

/-- The call `brtag.Split(html, -1)`: the pieces of `html` between the line-break markers
(one piece, the empty string, for the empty input). -/
def brtagSplit (html : GoString) : List GoString := brtagSplitAux 0 [] html

/-- The rest of a label of `【(.+?)】` once its first character is taken: characters up to the
first closing bracket, which has to come before the end of the line. -/
def speakertagClose : GoString → Option GoString
  | [] => none
  | c :: rest =>
    if c = '】' then some []
    else if c = '\n' then none
    else (speakertagClose rest).map (fun l => c :: l)

/-- The group `(.+?)` of `speakertag`, the pattern `(?m)^【(.+?)】`, matched right after an
opening bracket: one character that is not a newline, then as few as possible up to a closing
bracket. -/
def speakertagLabel : GoString → Option GoString
  | [] => none
  | c :: rest => if c = '\n' then none else (speakertagClose rest).map (fun l => c :: l)

/-- The scan behind `speakertag.FindAllStringSubmatch(s, -1)`: the first group of every match,
leftmost first. `lineStart` says whether the position is the start of the text or follows a
newline, `skip` counts the characters of a match still to be passed over. -/
def speakertagFindAllAux (lineStart : Bool) (skip : Nat) : GoString → List GoString
  | [] => []
  | c :: rest =>
    match skip with
    | k + 1 => speakertagFindAllAux false k rest
    | 0 =>
      if lineStart && c == '【' then
        match speakertagLabel rest with
        | some l => l :: speakertagFindAllAux false (l.length + 1) rest
        | none => speakertagFindAllAux false 0 rest
      else speakertagFindAllAux (c == '\n') 0 rest

/-- The labels `speakerElements[k][1]` of `speakertag.FindAllStringSubmatch(s, -1)`. -/
def speakertagFindAll (s : GoString) : List GoString := speakertagFindAllAux true 0 s

/-- The scan behind `speakertag.ReplaceAllString(s, "")`. -/
def speakertagReplaceAllAux (lineStart : Bool) (skip : Nat) : GoString → GoString
  | [] => []
  | c :: rest =>
    match skip with
    | k + 1 => speakertagReplaceAllAux false k rest
    | 0 =>
      if lineStart && c == '【' then
        match speakertagLabel rest with
        | some l => speakertagReplaceAllAux false (l.length + 1) rest
        | none => c :: speakertagReplaceAllAux false 0 rest
      else c :: speakertagReplaceAllAux (c == '\n') 0 rest

/-- The call `speakertag.ReplaceAllString(s, "")`: `s` without the tags that start a line. -/
def speakertagReplaceAll (s : GoString) : GoString := speakertagReplaceAllAux true 0 s

/-- The double quote and the single quote of the pattern `reptag`. -/
def isQuote (c : Char) : Bool := c.toNat == 34 || c.toNat == 39

/-- The body of `reptag`, the pattern `<("[^"]*"|'[^']*'|[^'">])*>`, after its `<`: the number of
characters up to and including the closing `>`. `q` is the quote that is open, if one is. -/
def reptagBody (q : Option Char) : GoString → Option Nat
  | [] => none
  | c :: rest =>
    match q with
    | some d =>
      if c = d then (reptagBody none rest).map (fun n => n + 1)
      else (reptagBody (some d) rest).map (fun n => n + 1)
    | none =>
      if c = '>' then some 1
      else if isQuote c then (reptagBody (some c) rest).map (fun n => n + 1)
      else (reptagBody none rest).map (fun n => n + 1)

/-- The scan behind `reptag.ReplaceAllString(s, "")`. -/
def reptagReplaceAllAux (skip : Nat) : GoString → GoString
  | [] => []
  | c :: rest =>
    match skip with
    | k + 1 => reptagReplaceAllAux k rest
    | 0 =>
      if c = '<' then
        match reptagBody none rest with
        | some n => reptagReplaceAllAux n rest
        | none => c :: reptagReplaceAllAux 0 rest
      else c :: reptagReplaceAllAux 0 rest

/-- The call `reptag.ReplaceAllString(talk, "")`: `talk` without the markup left in it. -/
def reptagReplaceAll (talk : GoString) : GoString := reptagReplaceAllAux 0 talk

/-- The characters excluded by `kutentag`, the pattern `[^。）―─]$`. -/
def kutenChars : List Char := ['。', '）', '―', '─']

/-- The call `kutentag.FindString(talk)`: the last character of `talk` when it is none of
`。）―─`, the empty string otherwise. -/
def kutentagFindString (talk : GoString) : GoString :=
  match talk.getLast? with
  | some c => if c ∈ kutenChars then [] else [c]
  | none => []

/-- The class `[0-9]`. -/
def isDigit (c : Char) : Bool := 48 ≤ c.toNat && c.toNat ≤ 57

/-- The tail `.+htm` of `wginfotag`: at least one character on the line, then `htm`. -/
def wginfotagTail : GoString → Bool
  | [] => false
  | c :: rest => c != '\n' && ((['h', 't', 'm'] : GoString).isPrefixOf rest || wginfotagTail rest)

/-- A match of `wginfotag`, the pattern `no([0-9][0-9])wg([0-9][0-9][0-9])-.+htm`, starting at
the head of the string: its two groups. -/
def wginfotagAt : GoString → Option (GoString × GoString)
  | 'n' :: 'o' :: a :: b :: 'w' :: 'g' :: c :: d :: e :: '-' :: rest =>
    if isDigit a && isDigit b && isDigit c && isDigit d && isDigit e && wginfotagTail rest
    then some ([a, b], [c, d, e]) else none
  | _ => none

/-- The groups `wginfo[1]`, `wginfo[2]` of `wginfotag.FindStringSubmatch(fileName)`, for the
leftmost match; `none` when there is no match (`len(wginfo) < 3`). -/
def wginfotagFind : GoString → Option (GoString × GoString)
  | [] => none
  | c :: rest =>
    match wginfotagAt (c :: rest) with
    | some r => some r
    | none => wginfotagFind rest

/-- The class `[ 0-9　０-９]` of `kaigitag`. -/
def isKaiDigit (c : Char) : Bool :=
  c == ' ' || isDigit c || c == '　' || (65296 ≤ c.toNat && c.toNat ≤ 65305)

/-- The tail `回.+` of `kaigitag`. -/
def kaigitagRound : GoString → Bool
  | c :: d :: _ => c == '回' && d != '\n'
  | _ => false

/-- The part `[ 0-9　０-９]+回.+` of `kaigitag`. -/
def kaigitagCount : GoString → Bool
  | [] => false
  | c :: rest => isKaiDigit c && (kaigitagRound rest || kaigitagCount rest)

/-- The part `.+[ 0-9　０-９]+回.+` of `kaigitag`. -/
def kaigitagAfter : GoString → Bool
  | [] => false
  | c :: rest => c != '\n' && (kaigitagCount rest || kaigitagAfter rest)

/-- The marker `ワーキンググループ` of `kaigitag`. -/
def kaigiMarker : GoString := ['ワ', 'ー', 'キ', 'ン', 'グ', 'グ', 'ル', 'ー', 'プ']

/-- A match of `kaigitag`, the pattern `.+ワーキンググループ.+[ 0-9　０-９]+回.+`, starting at the
head of the string. -/
def kaigitagAt : GoString → Bool
  | [] => false
  | c :: rest =>
    c != '\n' &&
      ((kaigiMarker.isPrefixOf rest && kaigitagAfter (rest.drop kaigiMarker.length)) ||
        kaigitagAt rest)

/-- The call `kaigitag.MatchString(khtml)`: the pattern matches somewhere in `khtml`. -/
def kaigitagMatchString : GoString → Bool
  | [] => false
  | c :: rest => kaigitagAt (c :: rest) || kaigitagMatchString rest

/-! ## Data model -/

/-- The struct `Person` of `memberlist.go`. -/
structure Person where
  ID : GoString
  Label : GoString
  Name : GoString
  Affiliation : GoString
  Role : GoString
deriving DecidableEq, Repr

/-- The zero value of `Person`. -/
def Person.zero : Person := ⟨[], [], [], [], []⟩

/-- The struct `Speaker` of `minutes.go`; a `float64` score is taken as a rational. -/
structure Speaker where
  Label : GoString
  Person : Person
  ResolutionScore : ℚ
deriving DecidableEq

/-- A `*Speaker`: the address of a `Speaker` in the heap. -/
abbrev SpeakerPtr := Nat

/-- The `Speaker` values allocated so far; the address of one is its position. -/
abbrev SpeakerHeap := List Speaker

/-- The struct `Speach` of `minutes.go`; `Speaker` is `none` for the nil pointer. -/
structure Speach where
  Speaker : Option SpeakerPtr
  Talks : List GoString
deriving DecidableEq, Repr

/-- The value of `new(Speach)`. -/
def Speach.new : Speach := ⟨none, []⟩

/-- A `map[string]*Speaker`: every key occurs once. -/
abbrev SpeakerMap := List (GoString × SpeakerPtr)

/-- The lookup `speaker, exists := m[key]`. -/
def SpeakerMap.get (m : SpeakerMap) (key : GoString) : Option SpeakerPtr :=
  (m.find? (fun e => e.1 == key)).map (fun e => e.2)

/-- The assignment `m[key] = ptr`: the entry of `key` is replaced, or a new one is added. -/
def SpeakerMap.set : SpeakerMap → GoString → SpeakerPtr → SpeakerMap
  | [], key, ptr => [(key, ptr)]
  | e :: rest, key, ptr =>
    if e.1 = key then (key, ptr) :: rest else e :: SpeakerMap.set rest key ptr

/-- The keys of a map. -/
def SpeakerMap.keys (m : SpeakerMap) : List GoString := m.map (fun e => e.1)

/-- The struct `Minutes` of `minutes.go`. -/
structure Minutes where
  Title : GoString
  WorkingGroup : GoString
  SpeachCount : Nat
  WorkingGroupOrder : GoString
  WorkingGroupID : GoString
  Date : GoString
  Venue : GoString
  Topics : List GoString
  Speakers : SpeakerMap
  Speaches : List Speach

/-! ## The segmenters of `minutes.go` -/

/-- The variables the element loops of both segmenters read and write: `minutes.Speaches`,
`minutes.Speakers`, the heap of allocated speakers and `currentSpeach`. -/
structure Seg where
  Speaches : List Speach
  Speakers : SpeakerMap
  heap : SpeakerHeap
  currentSpeach : Speach

/-- The state before the first paragraph. -/
def Seg.init : Seg := ⟨[], [], [], Speach.new⟩

/-- The branch `if len(speakerElements) > 0` (lines 88-101 and 172-185), for the label
`speakerElements[0][1]`: the open speech is closed when it has an utterance, a new one is
opened, and the speaker of the label is looked up, or allocated and stored under its label. -/
def Seg.openSpeach (st : Seg) (label : GoString) : Seg :=
  let speaches :=
    if st.currentSpeach.Talks.length > 0 then st.Speaches ++ [st.currentSpeach] else st.Speaches
  match st.Speakers.get label with
  | some speaker =>
    { Speaches := speaches, Speakers := st.Speakers, heap := st.heap,
      currentSpeach := { Speaker := some speaker, Talks := [] } }
  | none =>
    let speaker : SpeakerPtr := st.heap.length
    { Speaches := speaches, Speakers := st.Speakers.set label speaker,
      heap := st.heap ++ [{ Label := label, Person := Person.zero, ResolutionScore := 0 }],
      currentSpeach := { Speaker := some speaker, Talks := [] } }

/-- The statement `currentSpeach.Talks = append(currentSpeach.Talks, talk)`. -/
def Seg.appendTalk (st : Seg) (talk : GoString) : Seg :=
  { st with currentSpeach := { st.currentSpeach with Talks := st.currentSpeach.Talks ++ [talk] } }

/-- The body of the loop over `elements` in `ParseMinutesFromFile` (lines 85-106). -/
def fileElement (st : Seg) (s : GoString) : Seg :=
  let speakerElements := speakertagFindAll (TrimSpace s)
  let talk := speakertagReplaceAll (TrimSpace s)
  let st1 :=
    match speakerElements with
    | label :: _ => st.openSpeach label
    | [] => st
  if talk.length > 0 then st1.appendTalk talk else st1

/-- The callback of `doc.Find(QUERY).Each` in `ParseMinutesFromFile` (lines 82-107), on the
inner HTML of one paragraph. -/
def fileParagraph (st : Seg) (html : GoString) : Seg :=
  (brtagSplit html).foldl fileElement st

/-- What `ParseMinutesFromFile` reads of the document through goquery. -/
structure HtmlFile where
  /-- The text `doc.Find("h1").Text()`. -/
  h1Text : GoString
  /-- The inner HTML of the paragraphs selected by `QUERY`, in document order. -/
  paragraphs : List GoString

/-- The function `ParseMinutesFromFile`: the minutes, and the heap its speaker pointers point
into. -/
def ParseMinutesFromFile (fileName : GoString) (doc : HtmlFile) : Minutes × SpeakerHeap :=
  let title := doc.h1Text
  let wginfo := wginfotagFind fileName
  let st := doc.paragraphs.foldl fileParagraph Seg.init
  let speaches := st.Speaches ++ [st.currentSpeach]
  ({ Title := title
     WorkingGroup := title.takeWhile (fun c => c != '　')
     SpeachCount := speaches.length
     WorkingGroupOrder := match wginfo with | some g => g.1 | none => []
     WorkingGroupID := match wginfo with | some g => g.2 | none => []
     Date := []
     Venue := []
     Topics := []
     Speakers := st.Speakers
     Speaches := speaches }, st.heap)

/-- The variables of the element loop of `ParseMinutesFromPDF2Html`: those of `Seg`, and
`speakerDefined` and `prevTalk`. -/
structure PdfSeg where
  seg : Seg
  speakerDefined : Bool
  prevTalk : GoString

/-- The state before the first paragraph. -/
def PdfSeg.init : PdfSeg := ⟨Seg.init, false, []⟩

/-- The body of the loop over `elements` in `ParseMinutesFromPDF2Html` (lines 168-203). -/
def pdfElement (st : PdfSeg) (s : GoString) : PdfSeg :=
  let speakerElements := speakertagFindAll (TrimSpace s)
  let talk := reptagReplaceAll (speakertagReplaceAll (TrimSpace s))
  let st1 : PdfSeg :=
    match speakerElements with
    | label :: _ => { st with seg := st.seg.openSpeach label, speakerDefined := true }
    | [] => st
  if talk.length > 0 then
    if st1.speakerDefined then
      let bunmatsu := kutentagFindString talk
      if bunmatsu ≠ [] then { st1 with prevTalk := talk }
      else { st1 with seg := st1.seg.appendTalk (st1.prevTalk ++ talk), prevTalk := [] }
    else st1
  else st1

/-- The callback of `doc.Find(QUERY).Each` in `ParseMinutesFromPDF2Html` (lines 165-204). -/
def pdfParagraph (st : PdfSeg) (html : GoString) : PdfSeg :=
  (brtagSplit html).foldl pdfElement st

/-- What `ParseMinutesFromPDF2Html` reads of the document through goquery. -/
structure Pdf2HtmlFile where
  /-- The inner HTML of the paragraphs selected by `p:nth-child(-n+3)`, in document order. -/
  leadingParagraphs : List GoString
  /-- The inner HTML of every paragraph (`QUERY` is `p`), in document order. -/
  paragraphs : List GoString

/-- The callback of the title scan (lines 131-136). -/
def kaigiTitleStep (kaigiTitle khtml : GoString) : GoString :=
  if kaigitagMatchString khtml then khtml else kaigiTitle ++ []

/-- The function `ParseMinutesFromPDF2Html`: the minutes, and the heap its speaker pointers
point into. -/
def ParseMinutesFromPDF2Html (fileName : GoString) (doc : Pdf2HtmlFile) :
    Minutes × SpeakerHeap :=
  let kaigiTitle := doc.leadingParagraphs.foldl kaigiTitleStep []
  let wginfo := wginfotagFind fileName
  let st := doc.paragraphs.foldl pdfParagraph PdfSeg.init
  let speaches := st.seg.Speaches ++ [st.seg.currentSpeach]
  ({ Title := kaigiTitle
     WorkingGroup := kaigiTitle.takeWhile (fun c => c != '（')
     SpeachCount := speaches.length
     WorkingGroupOrder := match wginfo with | some g => g.1 | none => []
     WorkingGroupID := match wginfo with | some g => g.2 | none => []
     Date := []
     Venue := []
     Topics := []
     Speakers := st.seg.Speakers
     Speaches := speaches }, st.seg.heap)

/-! ## The resolver of `memberlist.go` -/

/-- The method `Person.NormarizeLabel`: `strings.Join([]string{person.Name, person.Role}, "")`. -/
def Person.NormarizeLabel (person : Person) : GoString :=
  person.Name ++ person.Role

/-- The struct `MemberList`; `WorkingGroup` is the address of the working group, `none` for
nil. -/
structure MemberList where
  WorkingGroup : Option Nat
  Members : List Person

/-- The struct `Similarity`; a `float64` score is taken as a rational (no NaN). -/
structure Similarity where
  Target : Person
  Score : ℚ
deriving DecidableEq

/-- The method `SimilarityArray.Less`, on the two elements it indexes. -/
def SimilarityArray.Less (x y : Similarity) : Bool := decide (x.Score ≤ y.Score)

/-- The ordering of `sort.Reverse(data)`: its `Less(i, j)` is `data.Less(j, i)`. -/
def sortReverse {α : Type} (less : α → α → Bool) (x y : α) : Bool := less y x

/-- The error `errors.New("名寄せ失敗: " + nameLabel)`, as its message. -/
def resolutionFailed (nameLabel : GoString) : GoString :=
  ['名', '寄', 'せ', '失', '敗', ':', ' '] ++ nameLabel

/-- The score the loop of `Resolve` gives a member (lines 82-87): `none` when one of the two
index expressions `[]rune(nameLabel)[0]`, `[]rune(memberLabel)[0]` is out of range. -/
def candidateScore (JaroWinklerDistance : GoString → GoString → ℚ) (nameLabel : GoString)
    (member : Person) : Option ℚ :=
  let memberLabel := member.NormarizeLabel
  match nameLabel.head?, memberLabel.head? with
  | some a, some b => if a ≠ b then some 0 else some (JaroWinklerDistance memberLabel nameLabel)
  | _, _ => none

/-- The loop of `Resolve` over `m.Members` (lines 81-89), from the array built so far. -/
def resolveLoop (JaroWinklerDistance : GoString → GoString → ℚ) (nameLabel : GoString) :
    List Similarity → List Person → Option (List Similarity)
  | similarityArray, [] => some similarityArray
  | similarityArray, member :: rest =>
    match candidateScore JaroWinklerDistance nameLabel member with
    | none => none
    | some score =>
      resolveLoop JaroWinklerDistance nameLabel
        (similarityArray ++ [{ Target := member, Score := score }]) rest

/-- The method `MemberList.Resolve`, given the library functions it calls: the triple
`(person, similarityArray, err)` it returns, or `none` when it panics. -/
def Resolve (JaroWinklerDistance : GoString → GoString → ℚ)
    (sortSort : (Similarity → Similarity → Bool) → List Similarity → List Similarity)
    (m : MemberList) (nameLabel : GoString) :
    Option (Option Person × List Similarity × Option GoString) :=
  match resolveLoop JaroWinklerDistance nameLabel [] m.Members with
  | none => none
  | some similarityArray =>
    if similarityArray.length ≤ 0 then
      some (none, similarityArray, some (resolutionFailed nameLabel))
    else
      match sortSort (sortReverse SimilarityArray.Less) similarityArray with
      | [] => none
      | top :: others =>
        if top.Score > 0 then some (some top.Target, top :: others, none)
        else some (none, top :: others, some (resolutionFailed nameLabel))

/-- The requirement the package `sort` puts on `Less`: a transitive ordering, in both of the
ways its documentation lists. -/
def TransitiveOrdering {α : Type} (less : α → α → Bool) : Prop :=
  (∀ a b c, less a b = true → less b c = true → less a c = true) ∧
  (∀ a b c, less a b = false → less b c = false → less a c = false)

/-- What is assumed of `sort.Sort`: for a transitive ordering the result is a rearrangement of
the input in which no element stands right before one that `less` puts strictly earlier. -/
def SortContract {α : Type} (sortSort : (α → α → Bool) → List α → List α) : Prop :=
  ∀ less, TransitiveOrdering less → ∀ l,
    (sortSort less l).Perm l ∧
      List.Chain' (fun x y => ¬ (less y x = true ∧ less x y = false)) (sortSort less l)

/-- The inner loop of `insertionSort` of the package `sort`: `x` moves left past every element
it is `less` than; the sorted part is held last element first. -/
def insertLeft {α : Type} (less : α → α → Bool) (x : α) : List α → List α
  | [] => [x]
  | y :: ys => if less x y then y :: insertLeft less x ys else x :: y :: ys

/-- The routine `insertionSort` of the package `sort`, the one `sort.Sort` runs on short
slices. -/
def insertionSort {α : Type} (less : α → α → Bool) (l : List α) : List α :=
  (l.foldl (fun sorted x => insertLeft less x sorted) []).reverse

/-- The top score of a roster for a label: the score of some member, and no member scores
higher. -/
def IsTopScore (JaroWinklerDistance : GoString → GoString → ℚ) (m : MemberList)
    (nameLabel : GoString) (s : ℚ) : Prop :=
  (∃ p ∈ m.Members, candidateScore JaroWinklerDistance nameLabel p = some s) ∧
    ∀ p ∈ m.Members, ∀ t, candidateScore JaroWinklerDistance nameLabel p = some t → t ≤ s

/-! ## Specification vocabulary and example inputs -/

/-- The elements of a document in document order: the pieces of its paragraphs between the
line-break markers. -/
def elementsOf (paragraphs : List GoString) : List GoString := paragraphs.flatMap brtagSplit

/-- The label of the speaker tag detected in an element, `speakerElements[0][1]`, when one is. -/
def elementTag (s : GoString) : Option GoString := (speakertagFindAll (TrimSpace s)).head?

/-- The tag-stripped text of an element in `ParseMinutesFromFile`. -/
def fileTalk (s : GoString) : GoString := speakertagReplaceAll (TrimSpace s)

/-- The text of an element as an utterance list: itself when it is not empty. -/
def nonEmptyTalk (talk : GoString) : List GoString := if talk.length > 0 then [talk] else []

/-- The elements grouped at the tagged ones: the utterances before the first tagged element,
and for every tagged element its label with the utterances of the element and of the untagged
elements that follow it. -/
def tagGroups : List GoString → List GoString × List (GoString × List GoString)
  | [] => ([], [])
  | e :: es =>
    match elementTag e with
    | some label => ([], (label, nonEmptyTalk (fileTalk e) ++ (tagGroups es).1) :: (tagGroups es).2)
    | none => (nonEmptyTalk (fileTalk e) ++ (tagGroups es).1, (tagGroups es).2)

/-- A list of speeches without those that have no utterance, the last one apart. -/
def dropEmptyButLast : List Speach → List Speach
  | [] => []
  | [sp] => [sp]
  | sp :: next :: rest =>
    if sp.Talks.length > 0 then sp :: dropEmptyButLast (next :: rest)
    else dropEmptyButLast (next :: rest)

/-- The labels of the speaker tags detected in the elements, in document order. -/
def detectedLabels (es : List GoString) : List GoString := es.filterMap elementTag

/-- The value `&Speaker{Label: label}`. -/
def Speaker.new (label : GoString) : Speaker :=
  { Label := label, Person := Person.zero, ResolutionScore := 0 }

/-- What a detected tag does to `minutes.Speakers` and the heap: nothing when its label is a
key already, else a speaker is allocated and stored under the label. -/
def register (r : SpeakerMap × SpeakerHeap) (label : GoString) : SpeakerMap × SpeakerHeap :=
  match r.1.get label with
  | some _ => r
  | none => (r.1.set label r.2.length, r.2 ++ [Speaker.new label])

/-- The registry is well formed: every key occurs once, and the address stored under a key
holds the speaker allocated for that key. -/
def RegInv (r : SpeakerMap × SpeakerHeap) : Prop :=
  r.1.keys.Nodup ∧ ∀ k p, r.1.get k = some p → r.2[p]? = some (Speaker.new k)

/-- The class `[\s　]` of `spacePattern` in `ParseMemberListFromHTML`: the ASCII white space
`\t \n \f \r` and the blank, and the ideographic space. -/
def isSpacePattern (c : Char) : Bool :=
  c.toNat == 9 || c.toNat == 10 || c.toNat == 12 || c.toNat == 13 || c.toNat == 32 ||
    c.toNat == 12288

/-- The call `spacePattern.ReplaceAllString(s, "")`: `s` without its white space. -/
def spacePatternReplaceAll (s : GoString) : GoString := s.filter (fun c => !isSpacePattern c)

/-- The first member of the roster of `ExampleMemberList_resolve`. -/
def yamada : Person :=
  { ID := "test-0001".toList, Label := "山田花子らべる".toList, Name := "山田花子".toList,
    Affiliation := "ラブラドール大学レトリーバー研究科教授".toList, Role := "主査代理".toList }

/-- The second member of the roster of `ExampleMemberList_resolve`. -/
def suzuki : Person :=
  { ID := "test-0002".toList, Label := "鈴木一郎ラベル".toList, Name := "鈴木一郎".toList,
    Affiliation := "ブルドッグ工科大学特任教授".toList, Role := "委員".toList }

/-- A person whose name is written with a blank between family and given name. -/
def spacedYamada : Person :=
  { ID := "test-0003".toList, Label := [], Name := "山田 花子".toList,
    Affiliation := [], Role := "主査代理".toList }

/-- Every speech of the state, the open one included, that has a speaker has one stored in
`Speakers`. -/
def SpeachInv (st : Seg) : Prop :=
  ∀ sp ∈ st.Speaches ++ [st.currentSpeach], ∀ p, sp.Speaker = some p →
    ∃ k, st.Speakers.get k = some p

/-- The cleaned text of an element in `ParseMinutesFromPDF2Html`: the tags that start a line
and the residual markup are stripped (lines 169-170). -/
def pdfTalk (s : GoString) : GoString := reptagReplaceAll (speakertagReplaceAll (TrimSpace s))

/-- The text ends in one of the terminal characters `。）―─`. -/
def endsInKuten (talk : GoString) : Bool :=
  match talk.getLast? with
  | some c => decide (c ∈ kutenChars)
  | none => false

/-- A scanned document in which a fragment without a terminal character is followed by the
tag of another speaker. -/
def crossingPdf : Pdf2HtmlFile :=
  { leadingParagraphs := []
    paragraphs := ["【A】本日は晴天".toList, "【B】了解。".toList] }

/-- A state of the scanned-variant loop with an open speech: the one reached after the element
`【議長】`. -/
def openedPdfSeg : PdfSeg := pdfElement PdfSeg.init "【議長】".toList

/-- A scanned document whose first two leading paragraphs both match the title pattern. -/
def twoTitlesPdf : Pdf2HtmlFile :=
  { leadingParagraphs :=
      ["教育課程部会ワーキンググループ（第1回）議事録".toList,
        "教育課程部会ワーキンググループ（第2回）配付資料".toList,
        "平成28年1月18日".toList]
    paragraphs := [] }

/-- A match of the pattern `no([0-9][0-9])wg([0-9][0-9][0-9])-.+htm` at the head of `s`, in the
words of the pattern: `no`, two digits (the first group), `wg`, three digits (the second
group), a hyphen, at least one character and none of them a newline, then `htm`. -/
def WgMatchAt (s order id : GoString) : Prop :=
  ∃ a b c d e mid post,
    s = ['n', 'o', a, b, 'w', 'g', c, d, e, '-'] ++ mid ++ ['h', 't', 'm'] ++ post ∧
    isDigit a = true ∧ isDigit b = true ∧ isDigit c = true ∧ isDigit d = true ∧
    isDigit e = true ∧ mid ≠ [] ∧ '\n' ∉ mid ∧ order = [a, b] ∧ id = [c, d, e]

/-- The file name contains the substring `no<2 digits>wg<3 digits>`. -/
def HasWgSubstring (s : GoString) : Prop :=
  ∃ pre a b c d e post,
    s = pre ++ ['n', 'o', a, b, 'w', 'g', c, d, e] ++ post ∧
    isDigit a = true ∧ isDigit b = true ∧ isDigit c = true ∧ isDigit d = true ∧
    isDigit e = true

/-- A transcript without any paragraph. -/
def emptyHtmlFile : HtmlFile := { h1Text := [], paragraphs := [] }

/-- A scanned transcript without any paragraph. -/
def emptyPdf : Pdf2HtmlFile := { leadingParagraphs := [], paragraphs := [] }

/-- The speeches closed so far all have an utterance. -/
def ClosedNonEmpty (st : Seg) : Prop := ∀ sp ∈ st.Speaches, sp.Talks ≠ []

/-- The speeches closed so far all have a speaker, and an open speech without a speaker has
no utterance. -/
def SpeakerOrEmpty (st : PdfSeg) : Prop :=
  (∀ sp ∈ st.seg.Speaches, sp.Speaker ≠ none) ∧
    (st.seg.currentSpeach.Speaker = none →
      st.speakerDefined = false ∧ st.seg.currentSpeach.Talks = [])

/-- A scanned document with a run of two fragments that do not end in a terminal character. -/
def lostRunPdf : Pdf2HtmlFile :=
  { leadingParagraphs := []
    paragraphs := ["【A】本日は".toList, "晴天".toList, "なり。".toList] }

/-- A scanned document that ends with a fragment that does not end in a terminal character. -/
def trailingPdf : Pdf2HtmlFile :=
  { leadingParagraphs := []
    paragraphs := ["【A】了解。".toList, "本日は晴天".toList] }

/-- The text the scanned variant is to keep: the cleaned fragments of the elements from the
first tagged one onward, joined in document order. -/
def cleanedFromFirstTag (es : List GoString) : GoString :=
  ((es.dropWhile (fun e => (elementTag e).isNone)).map pdfTalk).flatten

/-- The utterances of the speeches, joined in order. -/
def joinedTalks (speaches : List Speach) : GoString :=
  (speaches.flatMap Speach.Talks).flatten

/-- A cell of a table row, as goquery shows it: a header cell `th` or a data cell `td`, and
the text it holds. -/
structure Cell where
  isHeader : Bool
  text : GoString
deriving DecidableEq, Repr

/-- A table row `tr`: its cells in document order. -/
abbrev Row := List Cell

/-- The text `selection.Find("th").First().Text()`: that of the first header cell of the row,
empty when the row has none. -/
def thFirstText (row : Row) : GoString :=
  match row.find? (fun c => c.isHeader) with
  | some c => c.text
  | none => []

/-- The text `node.First().Text()` for `node := selection.Find("td")`: that of the first data
cell of the row, empty when the row has none. -/
def tdFirstText (row : Row) : GoString :=
  match row.find? (fun c => !c.isHeader) with
  | some c => c.text
  | none => []

/-- The text `node.Next().Text()` for `node := selection.Find("td")`: `Next` takes the cell
that directly follows each data cell of the row, `Text` joins their texts. -/
def tdNextText : Row → GoString
  | [] => []
  | [_] => []
  | c :: next :: rest => (if c.isHeader then [] else next.text) ++ tdNextText (next :: rest)

/-- The constant `defaultRole`. -/
def defaultRole : GoString := ['委', '員']

/-- The callback of `document.Find(query).Each` in `ParseMemberListFromHTML` (lines 123-144),
given the identifier generated for the row. -/
def memberOfRow (id : GoString) (selection : Row) : Person :=
  let role := thFirstText selection
  let role := if role.length ≤ 0 then defaultRole else role
  let name := spacePatternReplaceAll (tdFirstText selection)
  let member : Person :=
    { ID := id, Label := [], Name := name, Affiliation := tdNextText selection, Role := role }
  { member with Label := member.NormarizeLabel }

/-- The function `ParseMemberListFromHTML` on the rows selected by `#contentsMain table tr`;
`uuid idx` is the identifier `uuid.NewRandom()` returns for the row of index `idx`. -/
def ParseMemberListFromHTML (uuid : Nat → GoString) (rows : List Row) : MemberList :=
  { WorkingGroup := none
    Members := rows.enum.map (fun r => memberOfRow (uuid r.1) r.2) }

/-- The roster of the specification's example: two rows of a role, a name and an
affiliation. -/
def exampleRoster : List Row :=
  [[⟨true, []⟩, ⟨false, "山田花子".toList⟩, ⟨false, "X大学".toList⟩],
    [⟨true, "委員".toList⟩, ⟨false, "鈴木一郎".toList⟩, ⟨false, "Y大学".toList⟩]]

/-- A roster whose row has a third data cell, after the affiliation. -/
def wideRoster : List Row :=
  [[⟨true, []⟩, ⟨false, "山田 花子".toList⟩, ⟨false, "X大学".toList⟩, ⟨false, "教授".toList⟩]]

/-- The data cell that follows the first data cell of the row, when there is one. -/
def tdSecond (row : Row) : Option Cell :=
  ((row.dropWhile (fun c => c.isHeader)).drop 1).find? (fun c => !c.isHeader)

/-- Strings joined with a separator between them. -/
def joinWith (sep : GoString) : List GoString → GoString
  | [] => []
  | [a] => a
  | a :: b :: rest => a ++ sep ++ joinWith sep (b :: rest)

/-- A speaker tag at the head of a line, in the words of the pattern `^【(.+?)】`: the line is
`【`, a label of at least one character of which none after the first is `】`, then `】` and
the rest of the line. -/
def TagAt (line label rest : GoString) : Prop :=
  ∃ c cs, label = c :: cs ∧ '】' ∉ cs ∧ line = '【' :: c :: cs ++ '】' :: rest

/-- A line of an element as the tag pattern reads it: the line, the label of the tag it starts
with when it starts with one, and its text without that tag. -/
structure TaggedLine where
  line : GoString
  tag : Option GoString
  text : GoString

/-- The reading of a line is right: the line holds no newline, and either it starts with a tag
of the given label and the text is what follows the tag, or it starts with no tag and the text
is the line. -/
def TaggedLine.Reads (d : TaggedLine) : Prop :=
  '\n' ∉ d.line ∧
    ((∃ label, d.tag = some label ∧ TagAt d.line label d.text) ∨
      (d.tag = none ∧ d.text = d.line ∧ ∀ label rest, ¬ TagAt d.line label rest))

/-- The code points with the Unicode property White_Space. -/
def whiteSpaceCodePoints : List Nat :=
  [9, 10, 11, 12, 13, 32, 133, 160, 5760, 8192, 8193, 8194, 8195, 8196, 8197, 8198, 8199, 8200,
    8201, 8202, 8232, 8233, 8239, 8287, 12288]

/-- The text has white space neither at its start nor at its end. -/
def Trimmed (core : GoString) : Prop :=
  (∀ c, core.head? = some c → c.toNat ∉ whiteSpaceCodePoints) ∧
    (∀ c, core.getLast? = some c → c.toNat ∉ whiteSpaceCodePoints)

/-- The transcript of the specification's example: the elements `【議長】おはよう`,
`ございます。` and `【委員A】了解`. -/
def greetingHtml : HtmlFile :=
  { h1Text := "教育課程部会　第1回".toList
    paragraphs := ["【議長】おはよう<br/>ございます。".toList, "【委員A】了解".toList] }

/-- A transcript with an element of two lines that both start with a speaker tag. -/
def twoTagsHtml : HtmlFile :=
  { h1Text := []
    paragraphs := ["【C】c\n【D】d".toList] }

/-- A scanned transcript with an element of two lines that both start with a speaker tag. -/
def twoTagsPdf : Pdf2HtmlFile :=
  { leadingParagraphs := []
    paragraphs := ["【C】c。\n【D】d。".toList] }

/-! ## Theorems -/

theorem foldl_elementsOf {σ : Type} (f : σ → GoString → σ) (ps : List GoString) (st : σ) :
    ps.foldl (fun st html => (brtagSplit html).foldl f st) st = (elementsOf ps).foldl f st := by
  induction ps generalizing st with
  | nil => rfl
  | cons p ps ih => simp [elementsOf, List.flatMap_cons, List.foldl_append] at ih ⊢; exact ih _

theorem fileElement_eq (st : Seg) (s : GoString) :
    fileElement st s =
      (match elementTag s with
        | some label => if 0 < (fileTalk s).length then (st.openSpeach label).appendTalk (fileTalk s) else st.openSpeach label
        | none => if 0 < (fileTalk s).length then st.appendTalk (fileTalk s) else st) := by
  unfold fileElement elementTag fileTalk
  cases speakertagFindAll (TrimSpace s) <;> simp

theorem SpeakerMap.get_set (m : SpeakerMap) (k k2 : GoString) (p : SpeakerPtr) :
    (m.set k p).get k2 = if k2 = k then some p else m.get k2 := by
  induction m with
  | nil =>
    by_cases h : k2 = k
    · simp [SpeakerMap.set, SpeakerMap.get, h]
    · have : ¬ k = k2 := fun e => h e.symm
      simp [SpeakerMap.set, SpeakerMap.get, h, this]
  | cons e rest ih =>
    unfold SpeakerMap.set
    by_cases he : e.1 = k
    · by_cases h : k2 = k
      · simp [SpeakerMap.get, he, h]
      · have : ¬ k = k2 := fun e => h e.symm
        simp [SpeakerMap.get, he, h, this]
    · by_cases h2 : e.1 = k2
      · have : ¬ k2 = k := fun e => he (h2.trans e)
        simp [SpeakerMap.get, he, h2, this]
      · simp only [he, if_false]
        have := ih
        simp only [SpeakerMap.get, List.find?_cons] at this ⊢
        have hb : (e.1 == k2) = false := by simpa using h2
        rw [hb]
        exact this

theorem SpeakerMap.get_eq_none_iff (m : SpeakerMap) (k : GoString) :
    m.get k = none ↔ k ∉ m.keys := by
  induction m with
  | nil => simp [SpeakerMap.get, SpeakerMap.keys]
  | cons e rest ih =>
    simp only [SpeakerMap.get, SpeakerMap.keys, List.find?_cons, List.map_cons,
      List.mem_cons, not_or] at ih ⊢
    by_cases h : e.1 = k
    · have hb : (e.1 == k) = true := by simpa using h
      simp [hb, h]
    · have hb : (e.1 == k) = false := by simpa using h
      rw [hb]
      simp only [ih]
      constructor
      · intro h2; exact ⟨fun e2 => h e2.symm, h2⟩
      · intro h2; exact h2.2

theorem SpeakerMap.set_of_get_none (m : SpeakerMap) (k : GoString) (p : SpeakerPtr)
    (h : m.get k = none) : m.set k p = m ++ [(k, p)] := by
  induction m with
  | nil => rfl
  | cons e rest ih =>
    have hk : k ∉ SpeakerMap.keys (e :: rest) := (SpeakerMap.get_eq_none_iff _ _).1 h
    simp only [SpeakerMap.keys, List.map_cons, List.mem_cons, not_or] at hk
    have hne : ¬ e.1 = k := fun e2 => hk.1 e2.symm
    have hrest : SpeakerMap.get rest k = none :=
      (SpeakerMap.get_eq_none_iff _ _).2 (by simpa [SpeakerMap.keys] using hk.2)
    simp [SpeakerMap.set, hne, ih hrest]

theorem SpeakerMap.mem_of_get (m : SpeakerMap) (k : GoString) (p : SpeakerPtr)
    (h : m.get k = some p) : (k, p) ∈ m := by
  induction m with
  | nil => simp [SpeakerMap.get] at h
  | cons e rest ih =>
    simp only [SpeakerMap.get, List.find?_cons] at h ih
    by_cases he : e.1 = k
    · have hb : (e.1 == k) = true := by simpa using he
      rw [hb] at h
      simp only [Option.map_some', Option.some.injEq] at h
      have : e = (k, p) := by cases e; simp_all
      simp [this]
    · have hb : (e.1 == k) = false := by simpa using he
      rw [hb] at h
      exact List.mem_cons_of_mem _ (ih h)

theorem SpeakerMap.get_of_mem (m : SpeakerMap) (k : GoString) (p : SpeakerPtr)
    (hnd : m.keys.Nodup) (h : (k, p) ∈ m) : m.get k = some p := by
  induction m with
  | nil => simp at h
  | cons e rest ih =>
    simp only [SpeakerMap.keys, List.map_cons, List.nodup_cons] at hnd
    simp only [SpeakerMap.get, List.find?_cons] at ih ⊢
    rcases List.mem_cons.1 h with h1 | h1
    · subst h1; simp
    · have hk : k ∈ rest.map (fun e => e.1) := List.mem_map.2 ⟨(k, p), h1, rfl⟩
      have hne : ¬ e.1 = k := fun e2 => hnd.1 (e2 ▸ hk)
      have hb : (e.1 == k) = false := by simpa using hne
      rw [hb]
      exact ih hnd.2 h1

theorem register_get (r : SpeakerMap × SpeakerHeap) (l k : GoString) (p : SpeakerPtr)
    (h : r.1.get k = some p) : (register r l).1.get k = some p := by
  unfold register
  cases hl : r.1.get l with
  | some q => simpa using h
  | none =>
    have hne : k ≠ l := fun e => by rw [e, hl] at h; cases h
    simp [SpeakerMap.get_set, hne, h]

theorem register_get_self (r : SpeakerMap × SpeakerHeap) (l : GoString) :
    (register r l).1.get l = some (match r.1.get l with | some q => q | none => r.2.length) := by
  unfold register
  cases hl : r.1.get l with
  | some q => simpa using hl
  | none => simp [SpeakerMap.get_set]

theorem register_keys (r : SpeakerMap × SpeakerHeap) (l : GoString) :
    (register r l).1.keys = if l ∈ r.1.keys then r.1.keys else r.1.keys ++ [l] := by
  unfold register
  cases hl : r.1.get l with
  | some q =>
    have : l ∈ r.1.keys := by
      by_contra hc
      rw [(SpeakerMap.get_eq_none_iff _ _).2 hc] at hl; cases hl
    simp [this]
  | none =>
    have : l ∉ r.1.keys := (SpeakerMap.get_eq_none_iff _ _).1 hl
    rw [if_neg this]
    simp [SpeakerMap.set_of_get_none _ _ _ hl, SpeakerMap.keys]

theorem openSpeach_register (st : Seg) (l : GoString) :
    ((st.openSpeach l).Speakers, (st.openSpeach l).heap) = register (st.Speakers, st.heap) l := by
  unfold Seg.openSpeach register
  cases hl : st.Speakers.get l <;> simp [Speaker.new]

theorem openSpeach_current (st : Seg) (l : GoString) :
    (st.openSpeach l).currentSpeach = ⟨(st.openSpeach l).Speakers.get l, []⟩ := by
  unfold Seg.openSpeach
  cases hl : st.Speakers.get l <;> simp [hl, SpeakerMap.get_set]

theorem openSpeach_Speaches (st : Seg) (l : GoString) :
    (st.openSpeach l).Speaches =
      if st.currentSpeach.Talks.length > 0 then st.Speaches ++ [st.currentSpeach]
      else st.Speaches := by
  unfold Seg.openSpeach
  cases hl : st.Speakers.get l <;> simp

theorem appendTalk_fields (st : Seg) (t : GoString) :
    (st.appendTalk t).Speakers = st.Speakers ∧ (st.appendTalk t).heap = st.heap ∧
      (st.appendTalk t).Speaches = st.Speaches ∧
      (st.appendTalk t).currentSpeach = ⟨st.currentSpeach.Speaker, st.currentSpeach.Talks ++ [t]⟩ :=
  ⟨rfl, rfl, rfl, rfl⟩

theorem fileElement_registry (st : Seg) (e : GoString) :
    ((fileElement st e).Speakers, (fileElement st e).heap) =
      (match elementTag e with
        | some l => register (st.Speakers, st.heap) l
        | none => (st.Speakers, st.heap)) := by
  rw [fileElement_eq]
  cases elementTag e with
  | none => dsimp only; split <;> rfl
  | some l =>
    dsimp only
    rw [← openSpeach_register]
    split <;> rfl

theorem detectedLabels_cons (e : GoString) (es : List GoString) :
    detectedLabels (e :: es) =
      (match elementTag e with
        | some l => l :: detectedLabels es
        | none => detectedLabels es) := by
  unfold detectedLabels
  cases h : elementTag e <;> simp [List.filterMap_cons, h]

theorem file_registry (es : List GoString) (st : Seg) :
    ((es.foldl fileElement st).Speakers, (es.foldl fileElement st).heap) =
      (detectedLabels es).foldl register (st.Speakers, st.heap) := by
  induction es generalizing st with
  | nil => rfl
  | cons e es ih =>
    rw [List.foldl_cons, ih, fileElement_registry, detectedLabels_cons]
    cases elementTag e <;> rfl

theorem pdfElement_seg (st : PdfSeg) (e : GoString) :
    ∃ talks : List GoString,
      (pdfElement st e).seg =
        (match elementTag e with
          | some l => talks.foldl Seg.appendTalk (st.seg.openSpeach l)
          | none => talks.foldl Seg.appendTalk st.seg) := by
  unfold pdfElement elementTag
  cases speakertagFindAll (TrimSpace e) with
  | nil =>
    dsimp only [List.head?]
    by_cases h1 : (reptagReplaceAll (speakertagReplaceAll (TrimSpace e))).length > 0
    · rw [if_pos h1]
      by_cases h2 : st.speakerDefined = true
      · rw [if_pos h2]
        by_cases h3 : kutentagFindString (reptagReplaceAll (speakertagReplaceAll (TrimSpace e))) ≠ []
        · rw [if_pos h3]; exact ⟨[], rfl⟩
        · rw [if_neg h3]; exact ⟨[_], rfl⟩
      · rw [if_neg h2]; exact ⟨[], rfl⟩
    · rw [if_neg h1]; exact ⟨[], rfl⟩
  | cons l ls =>
    dsimp only [List.head?]
    by_cases h1 : (reptagReplaceAll (speakertagReplaceAll (TrimSpace e))).length > 0
    · rw [if_pos h1]
      by_cases h3 : kutentagFindString (reptagReplaceAll (speakertagReplaceAll (TrimSpace e))) ≠ []
      · simp only [if_true, if_pos h3]; exact ⟨[], rfl⟩
      · simp only [if_true, if_neg h3]; exact ⟨[_], rfl⟩
    · rw [if_neg h1]; exact ⟨[], rfl⟩

theorem foldl_appendTalk_fields (talks : List GoString) (st : Seg) :
    (talks.foldl Seg.appendTalk st).Speakers = st.Speakers ∧
      (talks.foldl Seg.appendTalk st).heap = st.heap ∧
      (talks.foldl Seg.appendTalk st).Speaches = st.Speaches ∧
      (talks.foldl Seg.appendTalk st).currentSpeach =
        ⟨st.currentSpeach.Speaker, st.currentSpeach.Talks ++ talks⟩ := by
  induction talks generalizing st with
  | nil => simp
  | cons t ts ih =>
    rw [List.foldl_cons]
    obtain ⟨h1, h2, h3, h4⟩ := ih (st.appendTalk t)
    refine ⟨h1, h2, h3, ?_⟩
    rw [h4]
    simp [Seg.appendTalk]

theorem pdfElement_registry (st : PdfSeg) (e : GoString) :
    ((pdfElement st e).seg.Speakers, (pdfElement st e).seg.heap) =
      (match elementTag e with
        | some l => register (st.seg.Speakers, st.seg.heap) l
        | none => (st.seg.Speakers, st.seg.heap)) := by
  obtain ⟨talks, h⟩ := pdfElement_seg st e
  rw [h]
  cases elementTag e with
  | none =>
    dsimp only
    rw [(foldl_appendTalk_fields talks _).1, (foldl_appendTalk_fields talks _).2.1]
  | some l =>
    dsimp only
    rw [(foldl_appendTalk_fields talks _).1, (foldl_appendTalk_fields talks _).2.1,
      openSpeach_register]

theorem pdf_registry (es : List GoString) (st : PdfSeg) :
    ((es.foldl pdfElement st).seg.Speakers, (es.foldl pdfElement st).seg.heap) =
      (detectedLabels es).foldl register (st.seg.Speakers, st.seg.heap) := by
  induction es generalizing st with
  | nil => rfl
  | cons e es ih =>
    rw [List.foldl_cons, ih, pdfElement_registry, detectedLabels_cons]
    cases elementTag e <;> rfl

theorem foldl_register_get (ls : List GoString) (r : SpeakerMap × SpeakerHeap) (k : GoString)
    (p : SpeakerPtr) (h : r.1.get k = some p) : (ls.foldl register r).1.get k = some p := by
  induction ls generalizing r with
  | nil => exact h
  | cons l ls ih => exact ih _ (register_get r l k p h)

theorem foldl_register_keys (ls : List GoString) (r : SpeakerMap × SpeakerHeap) (k : GoString) :
    k ∈ (ls.foldl register r).1.keys ↔ k ∈ r.1.keys ∨ k ∈ ls := by
  induction ls generalizing r with
  | nil => simp
  | cons l ls ih =>
    rw [List.foldl_cons, ih, register_keys]
    by_cases hl : l ∈ r.1.keys
    · rw [if_pos hl]
      constructor
      · rintro (h | h)
        · exact Or.inl h
        · exact Or.inr (List.mem_cons_of_mem _ h)
      · rintro (h | h)
        · exact Or.inl h
        · rcases List.mem_cons.1 h with h | h
          · exact Or.inl (h ▸ hl)
          · exact Or.inr h
    · rw [if_neg hl]
      simp only [List.mem_append, List.mem_singleton, List.mem_cons]
      tauto

theorem register_inv (r : SpeakerMap × SpeakerHeap) (l : GoString) (h : RegInv r) :
    RegInv (register r l) := by
  refine ⟨?_, ?_⟩
  · rw [register_keys]
    by_cases hl : l ∈ r.1.keys
    · rw [if_pos hl]; exact h.1
    · rw [if_neg hl]
      exact List.Nodup.append h.1 (List.nodup_singleton l) (by simpa using hl)
  · intro k p hk
    unfold register at hk ⊢
    cases hl : r.1.get l with
    | some q =>
      rw [hl] at hk
      simpa using h.2 k p hk
    | none =>
      rw [hl] at hk
      simp only [SpeakerMap.get_set] at hk
      by_cases hkl : k = l
      · rw [if_pos hkl] at hk
        cases hk
        simp [hkl]
      · rw [if_neg hkl] at hk
        have := h.2 k p hk
        have hp : p < r.2.length := by
          by_contra hc
          rw [List.getElem?_eq_none (not_lt.1 hc)] at this
          cases this
        simp only
        rw [List.getElem?_append_left hp]
        exact this

theorem foldl_register_inv (ls : List GoString) (r : SpeakerMap × SpeakerHeap) (h : RegInv r) :
    RegInv (ls.foldl register r) := by
  induction ls generalizing r with
  | nil => exact h
  | cons l ls ih => exact ih _ (register_inv r l h)

theorem regInv_init : RegInv (([] : SpeakerMap), ([] : SpeakerHeap)) := by
  refine ⟨by simp [SpeakerMap.keys], ?_⟩
  intro k p hk
  simp [SpeakerMap.get] at hk

theorem fileElement_none (st : Seg) (e : GoString) (h : elementTag e = none) :
    (fileElement st e).Speaches = st.Speaches ∧
      (fileElement st e).currentSpeach =
        ⟨st.currentSpeach.Speaker, st.currentSpeach.Talks ++ nonEmptyTalk (fileTalk e)⟩ := by
  rw [fileElement_eq, h]
  unfold nonEmptyTalk
  dsimp only
  by_cases ht : 0 < (fileTalk e).length
  · rw [if_pos ht, if_pos ht]; exact ⟨rfl, rfl⟩
  · rw [if_neg ht, if_neg ht, List.append_nil]; exact ⟨rfl, rfl⟩

theorem fileElement_some (st : Seg) (e l : GoString) (h : elementTag e = some l) :
    (fileElement st e).Speaches =
        (if st.currentSpeach.Talks.length > 0 then st.Speaches ++ [st.currentSpeach]
          else st.Speaches) ∧
      (fileElement st e).currentSpeach =
        ⟨(fileElement st e).Speakers.get l, nonEmptyTalk (fileTalk e)⟩ := by
  rw [fileElement_eq, h]
  unfold nonEmptyTalk
  dsimp only
  by_cases ht : 0 < (fileTalk e).length
  · rw [if_pos ht, if_pos ht]
    refine ⟨openSpeach_Speaches st l, ?_⟩
    rw [(appendTalk_fields _ _).2.2.2, (appendTalk_fields _ _).1, openSpeach_current]
    simp [SpeakerMap.get]
  · rw [if_neg ht, if_neg ht]
    exact ⟨openSpeach_Speaches st l, openSpeach_current st l⟩

theorem file_get_stable (es : List GoString) (st : Seg) (k : GoString) (p : SpeakerPtr)
    (h : st.Speakers.get k = some p) : (es.foldl fileElement st).Speakers.get k = some p := by
  have := congrArg Prod.fst (file_registry es st)
  simp only at this
  rw [this]
  exact foldl_register_get _ _ k p h

theorem fileElement_get_tag (st : Seg) (e l : GoString) (h : elementTag e = some l) :
    ∃ p, (fileElement st e).Speakers.get l = some p := by
  have := congrArg Prod.fst (fileElement_registry st e)
  simp only [h] at this
  rw [this]
  exact ⟨_, register_get_self _ l⟩

theorem file_speaches (es : List GoString) (st : Seg) :
    (es.foldl fileElement st).Speaches ++ [(es.foldl fileElement st).currentSpeach] =
      st.Speaches ++ dropEmptyButLast
        (⟨st.currentSpeach.Speaker, st.currentSpeach.Talks ++ (tagGroups es).1⟩ ::
          (tagGroups es).2.map
            (fun g => ⟨(es.foldl fileElement st).Speakers.get g.1, g.2⟩)) := by
  induction es generalizing st with
  | nil => simp [tagGroups, dropEmptyButLast]
  | cons e es ih =>
    rw [List.foldl_cons, ih]
    cases h : elementTag e with
    | none =>
      obtain ⟨h1, h2⟩ := fileElement_none st e h
      rw [h1, h2]
      simp [tagGroups, h, List.append_assoc]
    | some l =>
      obtain ⟨h1, h2⟩ := fileElement_some st e l h
      obtain ⟨p, hp⟩ := fileElement_get_tag st e l h
      have hF := file_get_stable es _ l p hp
      rw [h1, h2]
      simp only [tagGroups, h, List.map_cons, List.append_nil, hF, hp]
      by_cases hc : st.currentSpeach.Talks.length > 0
      · simp [dropEmptyButLast, hc]
      · simp [dropEmptyButLast, hc]

theorem dropEmptyButLast_talks (l : List Speach) :
    (dropEmptyButLast l).flatMap Speach.Talks = l.flatMap Speach.Talks := by
  induction l with
  | nil => rfl
  | cons sp rest ih =>
    cases rest with
    | nil => rfl
    | cons next rest =>
      unfold dropEmptyButLast
      by_cases hc : sp.Talks.length > 0
      · rw [if_pos hc, List.flatMap_cons, ih]
        simp [List.flatMap_cons]
      · rw [if_neg hc, ih]
        have : sp.Talks = [] := by
          cases hs : sp.Talks with
          | nil => rfl
          | cons a b => rw [hs] at hc; simp at hc
        simp [List.flatMap_cons, this]

theorem tagGroups_talks (es : List GoString) :
    (tagGroups es).1 ++ (tagGroups es).2.flatMap (fun g => g.2) =
      (es.map fileTalk).filter (fun t => decide (0 < t.length)) := by
  induction es with
  | nil => rfl
  | cons e es ih =>
    have hne : nonEmptyTalk (fileTalk e) =
        [fileTalk e].filter (fun t => decide (0 < t.length)) := by
      unfold nonEmptyTalk
      by_cases ht : 0 < (fileTalk e).length <;> simp [ht]
    have hcons : ((e :: es).map fileTalk).filter (fun t => decide (0 < t.length)) =
        nonEmptyTalk (fileTalk e) ++ (es.map fileTalk).filter (fun t => decide (0 < t.length)) := by
      rw [hne, ← List.filter_append]; rfl
    rw [hcons, ← ih]
    cases h : elementTag e with
    | none => simp [tagGroups, h, List.append_assoc]
    | some l => simp [tagGroups, h, List.append_assoc]

theorem tagGroups_labels (es : List GoString) :
    (tagGroups es).2.map (fun g => g.1) = detectedLabels es := by
  induction es with
  | nil => rfl
  | cons e es ih =>
    rw [detectedLabels_cons]
    cases h : elementTag e with
    | none => simpa [tagGroups, h] using ih
    | some l => simpa [tagGroups, h] using ih

/-- The segmentation of the direct-HTML variant over the elements of the document: the
utterances of the returned speeches, concatenated in speech order, are exactly the non-empty
tag-stripped texts of the elements in document order; the speeches are the groups of elements
cut at the tagged elements (a first group without a speaker for what precedes the first tag,
then one group per tagged element, holding its utterance and those of the untagged elements
after it), each under the speaker stored for the label of its opening tag, without the groups
that have no utterance, the last one apart. -/
theorem ParseMinutesFromFile_segmentation (fileName : GoString) (doc : HtmlFile) :
    ((ParseMinutesFromFile fileName doc).1.Speaches.flatMap Speach.Talks =
        ((elementsOf doc.paragraphs).map fileTalk).filter (fun t => decide (0 < t.length))) ∧
    ((ParseMinutesFromFile fileName doc).1.Speaches =
        dropEmptyButLast
          (⟨none, (tagGroups (elementsOf doc.paragraphs)).1⟩ ::
            (tagGroups (elementsOf doc.paragraphs)).2.map
              (fun g => ⟨(ParseMinutesFromFile fileName doc).1.Speakers.get g.1, g.2⟩))) ∧
    (∀ g ∈ (tagGroups (elementsOf doc.paragraphs)).2,
        ∃ p, (ParseMinutesFromFile fileName doc).1.Speakers.get g.1 = some p ∧
          (ParseMinutesFromFile fileName doc).2[p]? = some (Speaker.new g.1)) := by
  have hfold : doc.paragraphs.foldl fileParagraph Seg.init =
      (elementsOf doc.paragraphs).foldl fileElement Seg.init :=
    foldl_elementsOf fileElement doc.paragraphs Seg.init
  have hB := file_speaches (elementsOf doc.paragraphs) Seg.init
  simp only [Seg.init, Speach.new, List.nil_append] at hB
  have hS : (ParseMinutesFromFile fileName doc).1.Speaches =
      ((elementsOf doc.paragraphs).foldl fileElement Seg.init).Speaches ++
        [((elementsOf doc.paragraphs).foldl fileElement Seg.init).currentSpeach] := by
    simp only [ParseMinutesFromFile, hfold]
  have hK : (ParseMinutesFromFile fileName doc).1.Speakers =
      ((elementsOf doc.paragraphs).foldl fileElement Seg.init).Speakers := by
    simp only [ParseMinutesFromFile, hfold]
  have hH : (ParseMinutesFromFile fileName doc).2 =
      ((elementsOf doc.paragraphs).foldl fileElement Seg.init).heap := by
    simp only [ParseMinutesFromFile, hfold]
  simp only [Seg.init, Speach.new] at hS hK hH
  refine ⟨?_, ?_, ?_⟩
  · rw [hS, hB, dropEmptyButLast_talks, List.flatMap_cons, List.flatMap_map]
    exact tagGroups_talks _
  · rw [hS, hB, hK]
  · intro g hg
    have hreg := file_registry (elementsOf doc.paragraphs) Seg.init
    have hinv := foldl_register_inv (detectedLabels (elementsOf doc.paragraphs)) _ regInv_init
    have hmem : g.1 ∈ detectedLabels (elementsOf doc.paragraphs) := by
      rw [← tagGroups_labels]; exact List.mem_map.2 ⟨g, hg, rfl⟩
    have hkey := (foldl_register_keys (detectedLabels (elementsOf doc.paragraphs))
      (([] : SpeakerMap), ([] : SpeakerHeap)) g.1).2 (Or.inr hmem)
    simp only [Seg.init] at hreg
    rw [← hreg] at hinv hkey
    simp only at hinv hkey
    rw [hK, hH]
    cases hget : SpeakerMap.get
        (List.foldl fileElement ⟨[], [], [], ⟨none, []⟩⟩ (elementsOf doc.paragraphs)).Speakers g.1 with
    | none => exact absurd hkey ((SpeakerMap.get_eq_none_iff _ _).1 hget)
    | some p => exact ⟨p, rfl, hinv.2 _ _ hget⟩

/-- The example of the direct-HTML segmentation: the elements `【議長】おはよう`, `ございます。`
and `【委員A】了解` give two speeches, of `議長` and of `委員A`. -/
theorem ParseMinutesFromFile_example :
    ParseMinutesFromFile "no01wg057-1.html".toList
        { h1Text := "教育課程部会　第1回".toList
          paragraphs := ["【議長】おはよう<br/>ございます。".toList, "【委員A】了解".toList] } =
      ({ Title := "教育課程部会　第1回".toList
         WorkingGroup := "教育課程部会".toList
         SpeachCount := 2
         WorkingGroupOrder := "01".toList
         WorkingGroupID := "057".toList
         Date := []
         Venue := []
         Topics := []
         Speakers := [("議長".toList, 0), ("委員A".toList, 1)]
         Speaches := [⟨some 0, ["おはよう".toList, "ございます。".toList]⟩,
           ⟨some 1, ["了解".toList]⟩] },
        [Speaker.new "議長".toList, Speaker.new "委員A".toList]) := by
  rfl

theorem insertLeft_perm {α : Type} (less : α → α → Bool) (x : α) (ys : List α) :
    (insertLeft less x ys).Perm (x :: ys) := by
  induction ys with
  | nil => exact List.Perm.refl _
  | cons y ys ih =>
    unfold insertLeft
    by_cases h : less x y = true
    · rw [if_pos h]
      exact ((List.Perm.cons y ih).trans (List.Perm.swap x y ys))
    · rw [if_neg h]

theorem foldl_insertLeft_perm {α : Type} (less : α → α → Bool) (l acc : List α) :
    (l.foldl (fun sorted x => insertLeft less x sorted) acc).Perm (l.reverse ++ acc) := by
  induction l generalizing acc with
  | nil => exact List.Perm.refl _
  | cons x xs ih =>
    rw [List.foldl_cons]
    refine (ih _).trans ?_
    rw [List.reverse_cons, List.append_assoc]
    exact List.Perm.append_left _ (insertLeft_perm less x acc)

theorem insertLeft_chain {α : Type} (less : α → α → Bool) (x : α) (ys : List α)
    (h : List.Chain' (fun a b => ¬ (less a b = true ∧ less b a = false)) ys) :
    List.Chain' (fun a b => ¬ (less a b = true ∧ less b a = false)) (insertLeft less x ys) := by
  induction ys with
  | nil => simp [insertLeft]
  | cons y ys ih =>
    unfold insertLeft
    by_cases hxy : less x y = true
    · rw [if_pos hxy]
      have hrest := ih (List.Chain'.tail h)
      cases ys with
      | nil =>
        simp only [insertLeft, List.chain'_cons, List.chain'_singleton, and_true]
        intro hc; rw [hxy] at hc; cases hc.2
      | cons z zs =>
        unfold insertLeft at hrest ⊢
        by_cases hxz : less x z = true
        · rw [if_pos hxz] at hrest ⊢
          exact List.Chain'.cons (List.Chain'.rel_head h) hrest
        · rw [if_neg hxz] at hrest ⊢
          refine List.Chain'.cons ?_ hrest
          intro hc; rw [hxy] at hc; cases hc.2
    · rw [if_neg hxy]
      exact List.Chain'.cons (fun hc => hxy hc.1) h

theorem foldl_insertLeft_chain {α : Type} (less : α → α → Bool) (l acc : List α)
    (h : List.Chain' (fun a b => ¬ (less a b = true ∧ less b a = false)) acc) :
    List.Chain' (fun a b => ¬ (less a b = true ∧ less b a = false))
      (l.foldl (fun sorted x => insertLeft less x sorted) acc) := by
  induction l generalizing acc with
  | nil => exact h
  | cons x xs ih => exact ih _ (insertLeft_chain less x acc h)

/-- The routine `insertionSort` meets `SortContract`. -/
theorem insertionSort_contract {α : Type} :
    SortContract (insertionSort : (α → α → Bool) → List α → List α) := by
  intro less _ l
  constructor
  · unfold insertionSort
    refine (List.reverse_perm _).trans ?_
    have := foldl_insertLeft_perm less l []
    rw [List.append_nil] at this
    exact this.trans (List.reverse_perm l)
  · unfold insertionSort
    rw [List.chain'_reverse]
    have := foldl_insertLeft_chain less l [] List.chain'_nil
    exact this

theorem resolveLoop_some (jw : GoString → GoString → ℚ) (nameLabel : GoString)
    (ms : List Person) (acc out : List Similarity)
    (h : resolveLoop jw nameLabel acc ms = some out) :
    ∃ sc, out = acc ++ sc ∧
      List.Forall₂ (fun p s => s.Target = p ∧ candidateScore jw nameLabel p = some s.Score)
        ms sc := by
  induction ms generalizing acc with
  | nil =>
    simp only [resolveLoop, Option.some.injEq] at h
    exact ⟨[], by simp [h], List.Forall₂.nil⟩
  | cons p ps ih =>
    unfold resolveLoop at h
    cases hc : candidateScore jw nameLabel p with
    | none => rw [hc] at h; cases h
    | some x =>
      rw [hc] at h
      obtain ⟨sc, hsc, hf⟩ := ih _ h
      refine ⟨⟨p, x⟩ :: sc, ?_, List.Forall₂.cons ⟨rfl, hc⟩ hf⟩
      rw [hsc, List.append_assoc]; rfl

theorem resolveLoop_total (jw : GoString → GoString → ℚ) (nameLabel : GoString)
    (ms : List Person) (acc : List Similarity)
    (h : ∀ p ∈ ms, ∃ x, candidateScore jw nameLabel p = some x) :
    ∃ out, resolveLoop jw nameLabel acc ms = some out := by
  induction ms generalizing acc with
  | nil => exact ⟨acc, rfl⟩
  | cons p ps ih =>
    obtain ⟨x, hx⟩ := h p (List.mem_cons_self _ _)
    unfold resolveLoop
    rw [hx]
    exact ih _ (fun q hq => h q (List.mem_cons_of_mem _ hq))

theorem candidateScore_some_iff (jw : GoString → GoString → ℚ) (nameLabel : GoString)
    (p : Person) :
    (∃ x, candidateScore jw nameLabel p = some x) ↔ (nameLabel ≠ [] ∧ p.NormarizeLabel ≠ []) := by
  unfold candidateScore
  cases nameLabel with
  | nil => simp
  | cons a as =>
    cases p.NormarizeLabel with
    | nil => simp
    | cons b bs =>
      by_cases hab : a = b <;> simp [hab]

theorem candidateScore_nonneg (jw : GoString → GoString → ℚ) (hjw : ∀ a b, 0 ≤ jw a b)
    (nameLabel : GoString) (p : Person) (x : ℚ) (h : candidateScore jw nameLabel p = some x) :
    0 ≤ x := by
  unfold candidateScore at h
  cases nameLabel with
  | nil => simp at h
  | cons a as =>
    cases hl : p.NormarizeLabel with
    | nil => rw [hl] at h; simp at h
    | cons b bs =>
      rw [hl] at h
      by_cases hab : a = b
      · simp [hab] at h; rw [← h]; exact hjw _ _
      · simp [hab] at h; rw [← h]

theorem candidateScore_prefilter (jw : GoString → GoString → ℚ) (nameLabel : GoString)
    (p : Person) (x : ℚ) (h : candidateScore jw nameLabel p = some x)
    (hne : p.NormarizeLabel.head? ≠ nameLabel.head?) : x = 0 := by
  unfold candidateScore at h
  cases nameLabel with
  | nil => simp at h
  | cons a as =>
    cases hl : p.NormarizeLabel with
    | nil => rw [hl] at h; simp at h
    | cons b bs =>
      rw [hl] at h hne
      by_cases hab : a = b
      · exact absurd (by simp [hab]) hne
      · simp [hab] at h; exact h.symm

theorem sortReverse_Less_transitive : TransitiveOrdering (sortReverse SimilarityArray.Less) := by
  constructor
  · intro a b c hab hbc
    simp only [sortReverse, SimilarityArray.Less, decide_eq_true_eq] at hab hbc ⊢
    exact le_trans hbc hab
  · intro a b c hab hbc
    simp only [sortReverse, SimilarityArray.Less, decide_eq_false_iff_not, not_le] at hab hbc ⊢
    exact lt_trans hab hbc

/-- Under `SortContract` the array sorted in `Resolve` is a rearrangement of the input whose
scores never increase. -/
theorem sorted_similarities
    (sortSort : (Similarity → Similarity → Bool) → List Similarity → List Similarity)
    (hsort : SortContract sortSort) (arr : List Similarity) :
    (sortSort (sortReverse SimilarityArray.Less) arr).Perm arr ∧
      (sortSort (sortReverse SimilarityArray.Less) arr).Pairwise
        (fun x y => y.Score ≤ x.Score) := by
  obtain ⟨hp, hc⟩ := hsort _ sortReverse_Less_transitive arr
  refine ⟨hp, ?_⟩
  have hc2 : List.Chain' (fun x y : Similarity => y.Score ≤ x.Score)
      (sortSort (sortReverse SimilarityArray.Less) arr) := by
    refine List.Chain'.imp ?_ hc
    intro x y hxy
    by_contra hlt
    apply hxy
    simp only [sortReverse, SimilarityArray.Less, decide_eq_true_eq, decide_eq_false_iff_not]
    exact ⟨le_of_lt (not_le.1 hlt), hlt⟩
  haveI : IsTrans Similarity (fun x y => y.Score ≤ x.Score) :=
    ⟨fun a b c hab hbc => le_trans hbc hab⟩
  exact List.chain'_iff_pairwise.1 hc2

/-- The three ways `Resolve` returns, with what the loop and the sort produced. -/
theorem Resolve_cases (jw : GoString → GoString → ℚ)
    (sortSort : (Similarity → Similarity → Bool) → List Similarity → List Similarity)
    (m : MemberList) (nameLabel : GoString) (person : Option Person) (sims : List Similarity)
    (err : Option GoString) (h : Resolve jw sortSort m nameLabel = some (person, sims, err)) :
    ∃ arr, resolveLoop jw nameLabel [] m.Members = some arr ∧
      ((arr = [] ∧ person = none ∧ sims = [] ∧ err = some (resolutionFailed nameLabel)) ∨
        (arr ≠ [] ∧ ∃ top others,
          sortSort (sortReverse SimilarityArray.Less) arr = top :: others ∧
          sims = top :: others ∧
          ((0 < top.Score ∧ person = some top.Target ∧ err = none) ∨
            (¬ 0 < top.Score ∧ person = none ∧
              err = some (resolutionFailed nameLabel))))) := by
  unfold Resolve at h
  cases hl : resolveLoop jw nameLabel [] m.Members with
  | none => rw [hl] at h; cases h
  | some arr =>
    rw [hl] at h
    refine ⟨arr, rfl, ?_⟩
    by_cases hlen : arr.length ≤ 0
    · have harr : arr = [] := List.length_eq_zero.1 (Nat.le_zero.1 hlen)
      simp only [hlen, if_true, Option.some.injEq, Prod.mk.injEq] at h
      obtain ⟨h1, h2, h3⟩ := h
      exact Or.inl ⟨harr, h1.symm, by rw [← h2, harr], h3.symm⟩
    · have harr : arr ≠ [] := fun e => hlen (by rw [e]; exact Nat.le_refl 0)
      simp only [hlen, if_false] at h
      cases hs : sortSort (sortReverse SimilarityArray.Less) arr with
      | nil => rw [hs] at h; cases h
      | cons top others =>
        rw [hs] at h
        refine Or.inr ⟨harr, top, others, rfl, ?_⟩
        by_cases hpos : top.Score > 0
        · simp only [hpos, if_true, Option.some.injEq, Prod.mk.injEq] at h
          obtain ⟨h1, h2, h3⟩ := h
          exact ⟨h2.symm, Or.inl ⟨hpos, h1.symm, h3.symm⟩⟩
        · simp only [hpos, if_false, Option.some.injEq, Prod.mk.injEq] at h
          obtain ⟨h1, h2, h3⟩ := h
          exact ⟨h2.symm, Or.inr ⟨hpos, h1.symm, h3.symm⟩⟩

theorem forall₂_mem_right {α β : Type} {R : α → β → Prop} {l₁ : List α} {l₂ : List β}
    (h : List.Forall₂ R l₁ l₂) {b : β} (hb : b ∈ l₂) : ∃ a ∈ l₁, R a b := by
  induction h with
  | nil => cases hb
  | cons hr _ ih =>
    rcases List.mem_cons.1 hb with h1 | h1
    · subst h1; exact ⟨_, List.mem_cons_self _ _, hr⟩
    · obtain ⟨a, ha, hab⟩ := ih h1
      exact ⟨a, List.mem_cons_of_mem _ ha, hab⟩

theorem forall₂_mem_left {α β : Type} {R : α → β → Prop} {l₁ : List α} {l₂ : List β}
    (h : List.Forall₂ R l₁ l₂) {a : α} (ha : a ∈ l₁) : ∃ b ∈ l₂, R a b := by
  induction h with
  | nil => cases ha
  | cons hr _ ih =>
    rcases List.mem_cons.1 ha with h1 | h1
    · subst h1; exact ⟨_, List.mem_cons_self _ _, hr⟩
    · obtain ⟨b, hb, hab⟩ := ih h1
      exact ⟨b, List.mem_cons_of_mem _ hb, hab⟩

/-- What a returning call of `Resolve` returns, under `SortContract`: the similarity list is
a rearrangement of the per-member pairs with scores that never increase, and person and error
follow from its first entry. -/
theorem Resolve_spec (jw : GoString → GoString → ℚ)
    (sortSort : (Similarity → Similarity → Bool) → List Similarity → List Similarity)
    (hsort : SortContract sortSort)
    (m : MemberList) (nameLabel : GoString) (person : Option Person) (sims : List Similarity)
    (err : Option GoString) (h : Resolve jw sortSort m nameLabel = some (person, sims, err)) :
    ∃ sc,
      List.Forall₂ (fun p s => s.Target = p ∧ candidateScore jw nameLabel p = some s.Score)
        m.Members sc ∧
      sims.Perm sc ∧
      sims.Pairwise (fun x y => y.Score ≤ x.Score) ∧
      ((sims = [] ∧ person = none ∧ err = some (resolutionFailed nameLabel)) ∨
        (∃ top others, sims = top :: others ∧
          ((0 < top.Score ∧ person = some top.Target ∧ err = none) ∨
            (¬ 0 < top.Score ∧ person = none ∧
              err = some (resolutionFailed nameLabel))))) := by
  obtain ⟨arr, hloop, hcases⟩ := Resolve_cases jw sortSort m nameLabel person sims err h
  obtain ⟨sc, hsc, hf⟩ := resolveLoop_some jw nameLabel m.Members [] arr hloop
  rw [List.nil_append] at hsc
  subst hsc
  refine ⟨arr, hf, ?_⟩
  rcases hcases with ⟨harr, hp, hs, he⟩ | ⟨_, top, others, hsorted, hs, hrest⟩
  · rw [hs, harr]
    exact ⟨List.Perm.refl _, List.Pairwise.nil, Or.inl ⟨rfl, hp, he⟩⟩
  · obtain ⟨hperm, hpair⟩ := sorted_similarities sortSort hsort arr
    rw [hsorted] at hperm hpair
    rw [hs]
    exact ⟨hperm, hpair, Or.inr ⟨top, others, rfl, hrest⟩⟩

/-- When `Resolve` returns: for an empty roster, and else when neither the raw label nor the
normalized label of a member is empty. -/
theorem Resolve_returns_iff (jw : GoString → GoString → ℚ)
    (sortSort : (Similarity → Similarity → Bool) → List Similarity → List Similarity)
    (hsort : SortContract sortSort) (m : MemberList) (nameLabel : GoString) :
    (∃ r, Resolve jw sortSort m nameLabel = some r) ↔
      (m.Members = [] ∨ (nameLabel ≠ [] ∧ ∀ p ∈ m.Members, p.NormarizeLabel ≠ [])) := by
  constructor
  · rintro ⟨⟨person, sims, err⟩, h⟩
    obtain ⟨arr, hloop, -⟩ := Resolve_cases jw sortSort m nameLabel person sims err h
    obtain ⟨sc, -, hf⟩ := resolveLoop_some jw nameLabel m.Members [] arr hloop
    cases hm : m.Members with
    | nil => exact Or.inl rfl
    | cons q qs =>
      right
      rw [← hm]
      have hall : ∀ p ∈ m.Members, nameLabel ≠ [] ∧ p.NormarizeLabel ≠ [] := by
        intro p hp
        obtain ⟨s, _, hs⟩ := forall₂_mem_left hf hp
        exact (candidateScore_some_iff jw nameLabel p).1 ⟨_, hs.2⟩
      exact ⟨(hall q (by rw [hm]; exact List.mem_cons_self _ _)).1, fun p hp => (hall p hp).2⟩
  · intro hwf
    have hex : ∀ p ∈ m.Members, ∃ x, candidateScore jw nameLabel p = some x := by
      intro p hp
      rcases hwf with h1 | h1
      · rw [h1] at hp; cases hp
      · exact (candidateScore_some_iff jw nameLabel p).2 ⟨h1.1, h1.2 p hp⟩
    obtain ⟨arr, harr⟩ := resolveLoop_total jw nameLabel m.Members [] hex
    unfold Resolve
    rw [harr]
    by_cases hlen : arr.length ≤ 0
    · simp only [hlen, if_true]; exact ⟨_, rfl⟩
    · simp only [hlen, if_false]
      have hperm := (sorted_similarities sortSort hsort arr).1
      cases hs : sortSort (sortReverse SimilarityArray.Less) arr with
      | nil =>
        rw [hs] at hperm
        have := hperm.length_eq
        simp at this
        rw [← this] at hlen
        exact absurd (Nat.le_refl 0) hlen
      | cons top others =>
        dsimp only
        by_cases hpos : top.Score > 0
        · simp only [hpos, if_true]; exact ⟨_, rfl⟩
        · simp only [hpos, if_false]; exact ⟨_, rfl⟩

/-- C2. The result rule of `Resolve`, for a score function without negative values and a sort
meeting `SortContract`: on every input on which it returns, it returns no person and the
error "resolution failed" exactly when the roster is empty or the top candidate score is 0;
otherwise it returns a nil error and the target of the first entry of the similarity list,
a member of the roster whose score is the top score of all candidates. -/
theorem Resolve_result_rule (jw : GoString → GoString → ℚ)
    (sortSort : (Similarity → Similarity → Bool) → List Similarity → List Similarity)
    (hjw : ∀ a b, 0 ≤ jw a b) (hsort : SortContract sortSort)
    (m : MemberList) (nameLabel : GoString) (person : Option Person) (sims : List Similarity)
    (err : Option GoString) (h : Resolve jw sortSort m nameLabel = some (person, sims, err)) :
    ((person = none ∧ err = some (resolutionFailed nameLabel)) ↔
        (m.Members = [] ∨ IsTopScore jw m nameLabel 0)) ∧
      (¬ (m.Members = [] ∨ IsTopScore jw m nameLabel 0) →
        err = none ∧
        ∃ top others, sims = top :: others ∧ person = some top.Target ∧
          top.Target ∈ m.Members ∧
          candidateScore jw nameLabel top.Target = some top.Score ∧
          IsTopScore jw m nameLabel top.Score) := by
  obtain ⟨sc, hf, hperm, hpair, hcases⟩ := Resolve_spec jw sortSort hsort m nameLabel person sims err h
  rcases hcases with ⟨hs, hp, he⟩ | ⟨top, others, hs, hrest⟩
  · have hm : m.Members = [] := by
      rw [hs] at hperm
      have hsc : sc = [] := List.Perm.eq_nil hperm.symm
      rw [hsc] at hf
      exact List.length_eq_zero.1 (by simpa using hf.length_eq)
    exact ⟨⟨fun _ => Or.inl hm, fun _ => ⟨hp, he⟩⟩, fun hn => absurd (Or.inl hm) hn⟩
  · have htop_mem : top ∈ sc := hperm.subset (by rw [hs]; exact List.mem_cons_self _ _)
    obtain ⟨q, hq, hqt, hqs⟩ := forall₂_mem_right hf htop_mem
    have htarget : top.Target ∈ m.Members := by rw [hqt]; exact hq
    have hscore : candidateScore jw nameLabel top.Target = some top.Score := by rw [hqt]; exact hqs
    have hall : ∀ p ∈ m.Members, ∀ t, candidateScore jw nameLabel p = some t → t ≤ top.Score := by
      intro p hp t ht
      obtain ⟨s, hs1, _, hs3⟩ := forall₂_mem_left hf hp
      have hts : t = s.Score := by rw [ht] at hs3; exact Option.some.inj hs3
      have : s ∈ sims := hperm.symm.subset hs1
      rw [hs] at this hpair
      rcases List.mem_cons.1 this with h1 | h1
      · rw [hts, h1]
      · rw [hts]; exact (List.pairwise_cons.1 hpair).1 s h1
    have htopscore : IsTopScore jw m nameLabel top.Score := ⟨⟨top.Target, htarget, hscore⟩, hall⟩
    have hne : m.Members ≠ [] := List.ne_nil_of_mem htarget
    rcases hrest with ⟨hpos, hp, he⟩ | ⟨hnpos, hp, he⟩
    · have hnot : ¬ (m.Members = [] ∨ IsTopScore jw m nameLabel 0) := by
        rintro (h1 | h1)
        · exact hne h1
        · exact absurd (h1.2 top.Target htarget top.Score hscore) (not_le.2 hpos)
      refine ⟨⟨?_, fun hr => absurd hr hnot⟩, fun _ => ⟨he, top, others, hs, hp, htarget, hscore, htopscore⟩⟩
      rintro ⟨h1, -⟩
      rw [hp] at h1; cases h1
    · have hzero : top.Score = 0 :=
        le_antisymm (not_lt.1 hnpos) (candidateScore_nonneg jw hjw nameLabel _ _ hscore)
      have hr : m.Members = [] ∨ IsTopScore jw m nameLabel 0 := Or.inr (hzero ▸ htopscore)
      exact ⟨⟨fun _ => hr, fun _ => ⟨hp, he⟩⟩, fun hn => absurd hr hn⟩

/-- The witness of C2: the roster of `ExampleMemberList_resolve` and the raw label of that
test, with a score function that is constantly 1 and insertion sort. -/
theorem Resolve_result_rule_witness :
    ((some yamada = none ∧ (none : Option GoString) = some (resolutionFailed "山田（花）主査代理".toList)) ↔
        ((MemberList.mk none [suzuki, yamada]).Members = [] ∨
          IsTopScore (fun _ _ => 1) ⟨none, [suzuki, yamada]⟩ "山田（花）主査代理".toList 0)) ∧
      (¬ ((MemberList.mk none [suzuki, yamada]).Members = [] ∨
          IsTopScore (fun _ _ => 1) ⟨none, [suzuki, yamada]⟩ "山田（花）主査代理".toList 0) →
        (none : Option GoString) = none ∧
        ∃ top others, [(⟨yamada, 1⟩ : Similarity), ⟨suzuki, 0⟩] = top :: others ∧
          some yamada = some top.Target ∧
          top.Target ∈ (MemberList.mk none [suzuki, yamada]).Members ∧
          candidateScore (fun _ _ => 1) "山田（花）主査代理".toList top.Target = some top.Score ∧
          IsTopScore (fun _ _ => 1) ⟨none, [suzuki, yamada]⟩ "山田（花）主査代理".toList top.Score) :=
  Resolve_result_rule (fun _ _ => 1) insertionSort (fun _ _ => by norm_num) insertionSort_contract
    ⟨none, [suzuki, yamada]⟩ "山田（花）主査代理".toList (some yamada)
    [⟨yamada, 1⟩, ⟨suzuki, 0⟩] none (by decide)

/-- C3. Ranking of `Resolve`, for a sort meeting `SortContract` given the ordering
`sort.Reverse` of the non-strict `Less`: the call returns when neither the raw label nor a
normalized member label is empty, and the similarity list of a returning call is a
rearrangement of the per-member pairs (candidate, score), one per roster member, so as long
as the roster, with scores that never increase. -/
theorem Resolve_ranking (jw : GoString → GoString → ℚ)
    (sortSort : (Similarity → Similarity → Bool) → List Similarity → List Similarity)
    (hsort : SortContract sortSort) (m : MemberList) (nameLabel : GoString) :
    (nameLabel ≠ [] → (∀ p ∈ m.Members, p.NormarizeLabel ≠ []) →
        ∃ r, Resolve jw sortSort m nameLabel = some r) ∧
      (∀ person sims err, Resolve jw sortSort m nameLabel = some (person, sims, err) →
        (∃ pairs,
          List.Forall₂
            (fun p s => s.Target = p ∧ candidateScore jw nameLabel p = some s.Score)
            m.Members pairs ∧
          sims.Perm pairs) ∧
        sims.length = m.Members.length ∧
        sims.Pairwise (fun x y => y.Score ≤ x.Score)) := by
  constructor
  · intro h1 h2
    exact (Resolve_returns_iff jw sortSort hsort m nameLabel).2 (Or.inr ⟨h1, h2⟩)
  · intro person sims err h
    obtain ⟨sc, hf, hperm, hpair, -⟩ :=
      Resolve_spec jw sortSort hsort m nameLabel person sims err h
    exact ⟨⟨sc, hf, hperm⟩, hperm.length_eq.trans hf.length_eq.symm, hpair⟩

/-- The witness of C3: the roster of `ExampleMemberList_resolve` with insertion sort; the
ranked list has the matching member first. -/
theorem Resolve_ranking_witness :
    Resolve (fun _ _ => 1) insertionSort ⟨none, [suzuki, yamada]⟩ "山田（花）主査代理".toList =
        some (some yamada, [⟨yamada, 1⟩, ⟨suzuki, 0⟩], none) ∧
      ([(⟨yamada, 1⟩ : Similarity), ⟨suzuki, 0⟩].length = 2 ∧
        [(⟨yamada, 1⟩ : Similarity), ⟨suzuki, 0⟩].Pairwise (fun x y => y.Score ≤ x.Score)) :=
  ⟨by decide,
    ((Resolve_ranking (fun _ _ => 1) insertionSort insertionSort_contract
      ⟨none, [suzuki, yamada]⟩ "山田（花）主査代理".toList).2
        (some yamada) [⟨yamada, 1⟩, ⟨suzuki, 0⟩] none (by decide)).2⟩

/-- C4, at the failing inputs: with a roster that is not empty `Resolve` panics on the empty
raw label, and it panics on any raw label when a member has an empty name and an empty role;
no triple is returned. -/
theorem Resolve_panics (jw : GoString → GoString → ℚ)
    (sortSort : (Similarity → Similarity → Bool) → List Similarity → List Similarity) :
    Resolve jw sortSort ⟨none, [yamada]⟩ [] = none ∧
      Resolve jw sortSort ⟨none, [⟨"test-0004".toList, [], [], [], []⟩]⟩
        "山田（花）主査代理".toList = none := by
  constructor <;> rfl

/-- C5. Pre-filter of `Resolve`, for a sort meeting `SortContract`: when the roster is not
empty, the raw label starts with `r` and every normalized member label starts with a character
other than `r`, the call returns no person, the error "resolution failed" and a similarity
list whose scores are all 0; and in every returning call an entry whose normalized label does
not start with the first character of the raw label has score 0. -/
theorem Resolve_prefilter (jw : GoString → GoString → ℚ)
    (sortSort : (Similarity → Similarity → Bool) → List Similarity → List Similarity)
    (hsort : SortContract sortSort) (m : MemberList) (nameLabel : GoString) :
    (∀ r, m.Members ≠ [] → nameLabel.head? = some r →
        (∀ p ∈ m.Members, ∃ c, p.NormarizeLabel.head? = some c ∧ c ≠ r) →
        ∃ sims, Resolve jw sortSort m nameLabel =
            some (none, sims, some (resolutionFailed nameLabel)) ∧
          sims.length = m.Members.length ∧ ∀ s ∈ sims, s.Score = 0) ∧
      (∀ person sims err, Resolve jw sortSort m nameLabel = some (person, sims, err) →
        ∀ s ∈ sims, s.Target.NormarizeLabel.head? ≠ nameLabel.head? → s.Score = 0) := by
  have hsecond : ∀ person sims err,
      Resolve jw sortSort m nameLabel = some (person, sims, err) →
      ∀ s ∈ sims, s.Target.NormarizeLabel.head? ≠ nameLabel.head? → s.Score = 0 := by
    intro person sims err h s hs hne
    obtain ⟨sc, hf, hperm, -, -⟩ := Resolve_spec jw sortSort hsort m nameLabel person sims err h
    obtain ⟨p, _, hpt, hps⟩ := forall₂_mem_right hf (hperm.subset hs)
    rw [← hpt] at hps
    exact candidateScore_prefilter jw nameLabel s.Target s.Score hps hne
  refine ⟨?_, hsecond⟩
  intro r hm hr hall
  have hname : nameLabel ≠ [] := by
    intro e; rw [e] at hr; cases hr
  have hlabels : ∀ p ∈ m.Members, p.NormarizeLabel ≠ [] := by
    intro p hp e
    obtain ⟨c, hc, -⟩ := hall p hp
    rw [e] at hc; cases hc
  obtain ⟨⟨person, sims, err⟩, h⟩ :=
    (Resolve_returns_iff jw sortSort hsort m nameLabel).2 (Or.inr ⟨hname, hlabels⟩)
  obtain ⟨sc, hf, hperm, -, hcases⟩ := Resolve_spec jw sortSort hsort m nameLabel person sims err h
  have hzero : ∀ s ∈ sims, s.Score = 0 := by
    intro s hs
    apply hsecond person sims err h s hs
    obtain ⟨p, hp, hpt, -⟩ := forall₂_mem_right hf (hperm.subset hs)
    obtain ⟨c, hc, hcr⟩ := hall p hp
    rw [hpt, hc, hr]
    intro e
    exact hcr (Option.some.inj e)
  have hlen : sims.length = m.Members.length := hperm.length_eq.trans hf.length_eq.symm
  rcases hcases with ⟨hs, hp, he⟩ | ⟨top, others, hs, hrest⟩
  · exact ⟨sims, by rw [h, hp, he], hlen, hzero⟩
  · rcases hrest with ⟨hpos, -, -⟩ | ⟨-, hp, he⟩
    · have := hzero top (by rw [hs]; exact List.mem_cons_self _ _)
      rw [this] at hpos
      exact absurd hpos (lt_irrefl 0)
    · exact ⟨sims, by rw [h, hp, he], hlen, hzero⟩

/-- The witness of C5: the raw label `田中委員` starts with a character that starts no label
of the roster of `ExampleMemberList_resolve`. -/
theorem Resolve_prefilter_witness :
    ∃ sims, Resolve (fun _ _ => 1) insertionSort ⟨none, [yamada, suzuki]⟩ "田中委員".toList =
        some (none, sims, some (resolutionFailed "田中委員".toList)) ∧
      sims.length = (MemberList.mk none [yamada, suzuki]).Members.length ∧
      ∀ s ∈ sims, s.Score = 0 :=
  (Resolve_prefilter (fun _ _ => 1) insertionSort insertionSort_contract
    ⟨none, [yamada, suzuki]⟩ "田中委員".toList).1 '田' (by decide) (by decide) (by decide)

/-- C6, counterexample: for a name written with a blank, `NormarizeLabel` keeps the blank; the
result differs from the concatenation of name and role with the white space removed. -/
theorem NormarizeLabel_keeps_whitespace :
    spacedYamada.NormarizeLabel ≠ spacePatternReplaceAll (spacedYamada.Name ++ spacedYamada.Role) ∧
      ' ' ∈ spacedYamada.NormarizeLabel ∧
      spacedYamada.NormarizeLabel = "山田 花子主査代理".toList := by
  decide

/-- C6, as amended. `NormarizeLabel` returns the name followed by the role, character for
character (white space is kept), whatever the fields `ID`, `Label` and `Affiliation` hold;
the result is free of white space exactly when both name and role are; the person of
`ExamplePerson_normarizeLabel` gives `山田花子主査代理`. -/
theorem NormarizeLabel_concat :
    (∀ id label name affiliation role : GoString,
        (Person.mk id label name affiliation role).NormarizeLabel = name ++ role) ∧
      (∀ person : Person,
        spacePatternReplaceAll person.NormarizeLabel = person.NormarizeLabel ↔
          (∀ c ∈ person.Name, isSpacePattern c = false) ∧
            (∀ c ∈ person.Role, isSpacePattern c = false)) ∧
      yamada.NormarizeLabel = "山田花子主査代理".toList := by
  refine ⟨fun _ _ _ _ _ => rfl, ?_, by decide⟩
  intro person
  unfold spacePatternReplaceAll Person.NormarizeLabel
  rw [List.filter_eq_self]
  simp only [List.mem_append, Bool.not_eq_true', Bool.not_eq_eq_eq_not, Bool.not_true]
  constructor
  · intro h
    exact ⟨fun c hc => h c (Or.inl hc), fun c hc => h c (Or.inr hc)⟩
  · rintro ⟨h1, h2⟩ c (hc | hc)
    · exact h1 c hc
    · exact h2 c hc

theorem openSpeach_get (st : Seg) (l k : GoString) (p : SpeakerPtr)
    (h : st.Speakers.get k = some p) : (st.openSpeach l).Speakers.get k = some p := by
  have := congrArg Prod.fst (openSpeach_register st l)
  simp only at this
  rw [this]
  exact register_get _ l k p h

theorem openSpeach_speachInv (st : Seg) (l : GoString) (h : SpeachInv st) :
    SpeachInv (st.openSpeach l) := by
  intro sp hsp p hp
  rw [openSpeach_Speaches, openSpeach_current] at hsp
  rcases List.mem_append.1 hsp with h1 | h1
  · have hold : sp ∈ st.Speaches ++ [st.currentSpeach] := by
      by_cases hc : st.currentSpeach.Talks.length > 0
      · rw [if_pos hc] at h1; exact h1
      · rw [if_neg hc] at h1; exact List.mem_append_left _ h1
    obtain ⟨k, hk⟩ := h sp hold p hp
    exact ⟨k, openSpeach_get st l k p hk⟩
  · rw [List.mem_singleton] at h1
    subst h1
    exact ⟨l, hp⟩

theorem appendTalk_speachInv (st : Seg) (t : GoString) (h : SpeachInv st) :
    SpeachInv (st.appendTalk t) := by
  intro sp hsp p hp
  rw [(appendTalk_fields st t).2.2.1, (appendTalk_fields st t).2.2.2] at hsp
  rw [(appendTalk_fields st t).1]
  rcases List.mem_append.1 hsp with h1 | h1
  · exact h sp (List.mem_append_left _ h1) p hp
  · rw [List.mem_singleton] at h1
    subst h1
    exact h st.currentSpeach (List.mem_append_right _ (List.mem_singleton.2 rfl)) p hp

theorem foldl_appendTalk_speachInv (talks : List GoString) (st : Seg) (h : SpeachInv st) :
    SpeachInv (talks.foldl Seg.appendTalk st) := by
  induction talks generalizing st with
  | nil => exact h
  | cons t ts ih => exact ih _ (appendTalk_speachInv st t h)

theorem fileElement_seg (st : Seg) (e : GoString) :
    ∃ talks : List GoString,
      fileElement st e =
        (match elementTag e with
          | some l => talks.foldl Seg.appendTalk (st.openSpeach l)
          | none => talks.foldl Seg.appendTalk st) := by
  rw [fileElement_eq]
  cases elementTag e with
  | none =>
    dsimp only
    by_cases ht : 0 < (fileTalk e).length
    · rw [if_pos ht]; exact ⟨[_], rfl⟩
    · rw [if_neg ht]; exact ⟨[], rfl⟩
  | some l =>
    dsimp only
    by_cases ht : 0 < (fileTalk e).length
    · rw [if_pos ht]; exact ⟨[_], rfl⟩
    · rw [if_neg ht]; exact ⟨[], rfl⟩

theorem file_speachInv (es : List GoString) (st : Seg) (h : SpeachInv st) :
    SpeachInv (es.foldl fileElement st) := by
  induction es generalizing st with
  | nil => exact h
  | cons e es ih =>
    rw [List.foldl_cons]
    apply ih
    obtain ⟨talks, ht⟩ := fileElement_seg st e
    rw [ht]
    cases elementTag e with
    | none => exact foldl_appendTalk_speachInv talks _ h
    | some l => exact foldl_appendTalk_speachInv talks _ (openSpeach_speachInv st l h)

theorem pdf_speachInv (es : List GoString) (st : PdfSeg) (h : SpeachInv st.seg) :
    SpeachInv (es.foldl pdfElement st).seg := by
  induction es generalizing st with
  | nil => exact h
  | cons e es ih =>
    rw [List.foldl_cons]
    apply ih
    obtain ⟨talks, ht⟩ := pdfElement_seg st e
    rw [ht]
    cases elementTag e with
    | none => exact foldl_appendTalk_speachInv talks _ h
    | some l => exact foldl_appendTalk_speachInv talks _ (openSpeach_speachInv st.seg l h)

theorem speachInv_init : SpeachInv Seg.init := by
  intro sp hsp p hp
  simp only [Seg.init, Speach.new, List.nil_append, List.mem_singleton] at hsp
  subst hsp
  cases hp

theorem detectedLabels_append (pre post : List GoString) :
    detectedLabels (pre ++ post) = detectedLabels pre ++ detectedLabels post := by
  unfold detectedLabels
  exact List.filterMap_append _ _ _

theorem register_first (ls1 ls2 : List GoString) (l : GoString) (r : SpeakerMap × SpeakerHeap)
    (h1 : l ∉ ls1) (h2 : l ∉ r.1.keys) :
    (ls1.foldl register r).1.get l = none ∧
      ((ls1 ++ l :: ls2).foldl register r).1.get l = some (ls1.foldl register r).2.length := by
  have hnone : (ls1.foldl register r).1.get l = none := by
    rw [SpeakerMap.get_eq_none_iff, foldl_register_keys]
    exact fun h => h.elim h2 h1
  refine ⟨hnone, ?_⟩
  rw [List.foldl_append, List.foldl_cons]
  apply foldl_register_get
  have := register_get_self (ls1.foldl register r) l
  rw [hnone] at this
  exact this

theorem register_later (ls1 ls2 : List GoString) (l : GoString) (r : SpeakerMap × SpeakerHeap)
    (h1 : l ∈ ls1) :
    ((ls1 ++ ls2).foldl register r).1.get l = (ls1.foldl register r).1.get l := by
  rw [List.foldl_append]
  cases hget : (ls1.foldl register r).1.get l with
  | none =>
    have := (SpeakerMap.get_eq_none_iff _ _).1 hget
    rw [foldl_register_keys] at this
    exact absurd (Or.inr h1) this
  | some p => exact foldl_register_get _ _ l p hget

/-- The function `ParseMinutesFromFile` in terms of the loop over the elements. -/
theorem ParseMinutesFromFile_fields (fileName : GoString) (doc : HtmlFile) :
    (ParseMinutesFromFile fileName doc).1.Speaches =
        ((elementsOf doc.paragraphs).foldl fileElement Seg.init).Speaches ++
          [((elementsOf doc.paragraphs).foldl fileElement Seg.init).currentSpeach] ∧
      (ParseMinutesFromFile fileName doc).1.Speakers =
        ((elementsOf doc.paragraphs).foldl fileElement Seg.init).Speakers ∧
      (ParseMinutesFromFile fileName doc).2 =
        ((elementsOf doc.paragraphs).foldl fileElement Seg.init).heap := by
  have hfold : doc.paragraphs.foldl fileParagraph Seg.init =
      (elementsOf doc.paragraphs).foldl fileElement Seg.init :=
    foldl_elementsOf fileElement doc.paragraphs Seg.init
  simp only [ParseMinutesFromFile, hfold, and_self]

/-- The function `ParseMinutesFromPDF2Html` in terms of the loop over the elements. -/
theorem ParseMinutesFromPDF2Html_fields (fileName : GoString) (doc : Pdf2HtmlFile) :
    (ParseMinutesFromPDF2Html fileName doc).1.Speaches =
        ((elementsOf doc.paragraphs).foldl pdfElement PdfSeg.init).seg.Speaches ++
          [((elementsOf doc.paragraphs).foldl pdfElement PdfSeg.init).seg.currentSpeach] ∧
      (ParseMinutesFromPDF2Html fileName doc).1.Speakers =
        ((elementsOf doc.paragraphs).foldl pdfElement PdfSeg.init).seg.Speakers ∧
      (ParseMinutesFromPDF2Html fileName doc).2 =
        ((elementsOf doc.paragraphs).foldl pdfElement PdfSeg.init).seg.heap := by
  have hfold : doc.paragraphs.foldl pdfParagraph PdfSeg.init =
      (elementsOf doc.paragraphs).foldl pdfElement PdfSeg.init :=
    foldl_elementsOf pdfElement doc.paragraphs PdfSeg.init
  simp only [ParseMinutesFromPDF2Html, hfold, and_self]

/-- The registry reached from the empty one by the detected labels: its keys are those labels,
each once, every entry points at the speaker of its key, a label first detected after `pre` is
stored at the address allocated then, and a label detected in `pre` keeps its entry. -/
theorem registry_dedup (ls : List GoString) :
    ((ls.foldl register ([], [])).1.keys.Nodup) ∧
    (∀ l, l ∈ (ls.foldl register ([], [])).1.keys ↔ l ∈ ls) ∧
    (∀ k p, (k, p) ∈ (ls.foldl register ([], [])).1 →
      ∃ sp, (ls.foldl register ([], [])).2[p]? = some sp ∧ sp.Label = k) ∧
    (∀ pre post l, ls = pre ++ l :: post → l ∉ pre →
      (pre.foldl register ([], [])).1.get l = none ∧
      (ls.foldl register ([], [])).1.get l = some (pre.foldl register ([], [])).2.length) ∧
    (∀ pre post l, ls = pre ++ post → l ∈ pre →
      (ls.foldl register ([], [])).1.get l = (pre.foldl register ([], [])).1.get l) := by
  have hinv := foldl_register_inv ls _ regInv_init
  refine ⟨hinv.1, ?_, ?_, ?_, ?_⟩
  · intro l
    rw [foldl_register_keys]
    simp [SpeakerMap.keys]
  · intro k p hkp
    exact ⟨_, hinv.2 k p (SpeakerMap.get_of_mem _ k p hinv.1 hkp), rfl⟩
  · intro pre post l hls hl
    subst hls
    exact register_first pre post l _ hl (by simp [SpeakerMap.keys])
  · intro pre post l hls hl
    subst hls
    exact register_later pre post l _ hl

/-- Speaker registration, in both segmenters: the keys of `Minutes.Speakers` are, each once,
the labels of the first speaker tag of the elements; every key is stored with the
address of a speaker whose `Label` is that key; a label first detected in an element `e` is
absent before `e` and ends up stored with the address allocated at `e`; and the entry of a
label detected in a prefix of the document is the same at the end as after that prefix. -/
theorem Speakers_registry (fileName : GoString) (doc : HtmlFile) (pdf : Pdf2HtmlFile) :
    (((ParseMinutesFromFile fileName doc).1.Speakers.keys.Nodup) ∧
      (∀ l, l ∈ (ParseMinutesFromFile fileName doc).1.Speakers.keys ↔
        l ∈ detectedLabels (elementsOf doc.paragraphs)) ∧
      (∀ k p, (k, p) ∈ (ParseMinutesFromFile fileName doc).1.Speakers →
        ∃ sp, (ParseMinutesFromFile fileName doc).2[p]? = some sp ∧ sp.Label = k) ∧
      (∀ pre e post l, elementsOf doc.paragraphs = pre ++ e :: post → elementTag e = some l →
        l ∉ detectedLabels pre →
        (pre.foldl fileElement Seg.init).Speakers.get l = none ∧
        (ParseMinutesFromFile fileName doc).1.Speakers.get l =
          some (pre.foldl fileElement Seg.init).heap.length) ∧
      (∀ pre post l, elementsOf doc.paragraphs = pre ++ post → l ∈ detectedLabels pre →
        (ParseMinutesFromFile fileName doc).1.Speakers.get l =
          (pre.foldl fileElement Seg.init).Speakers.get l)) ∧
    (((ParseMinutesFromPDF2Html fileName pdf).1.Speakers.keys.Nodup) ∧
      (∀ l, l ∈ (ParseMinutesFromPDF2Html fileName pdf).1.Speakers.keys ↔
        l ∈ detectedLabels (elementsOf pdf.paragraphs)) ∧
      (∀ k p, (k, p) ∈ (ParseMinutesFromPDF2Html fileName pdf).1.Speakers →
        ∃ sp, (ParseMinutesFromPDF2Html fileName pdf).2[p]? = some sp ∧ sp.Label = k) ∧
      (∀ pre e post l, elementsOf pdf.paragraphs = pre ++ e :: post → elementTag e = some l →
        l ∉ detectedLabels pre →
        (pre.foldl pdfElement PdfSeg.init).seg.Speakers.get l = none ∧
        (ParseMinutesFromPDF2Html fileName pdf).1.Speakers.get l =
          some (pre.foldl pdfElement PdfSeg.init).seg.heap.length) ∧
      (∀ pre post l, elementsOf pdf.paragraphs = pre ++ post → l ∈ detectedLabels pre →
        (ParseMinutesFromPDF2Html fileName pdf).1.Speakers.get l =
          (pre.foldl pdfElement PdfSeg.init).seg.Speakers.get l)) := by
  constructor
  · obtain ⟨-, hK, hH⟩ := ParseMinutesFromFile_fields fileName doc
    have hreg : ∀ es : List GoString,
        (detectedLabels es).foldl register ([], []) =
          ((es.foldl fileElement Seg.init).Speakers, (es.foldl fileElement Seg.init).heap) :=
      fun es => (file_registry es Seg.init).symm
    obtain ⟨h1, h2, h3, h4, h5⟩ := registry_dedup (detectedLabels (elementsOf doc.paragraphs))
    rw [hreg] at h1 h2 h3 h4 h5
    rw [hK, hH]
    refine ⟨h1, h2, h3, ?_, ?_⟩
    · intro pre e post l hes he hl
      have hd : detectedLabels (elementsOf doc.paragraphs) =
          detectedLabels pre ++ l :: detectedLabels post := by
        rw [hes, detectedLabels_append, detectedLabels_cons, he]
      have := h4 (detectedLabels pre) (detectedLabels post) l hd hl
      rw [hreg] at this
      exact this
    · intro pre post l hes hl
      have hd : detectedLabels (elementsOf doc.paragraphs) =
          detectedLabels pre ++ detectedLabels post := by
        rw [hes, detectedLabels_append]
      have := h5 (detectedLabels pre) (detectedLabels post) l hd hl
      rw [hreg] at this
      exact this
  · obtain ⟨-, hK, hH⟩ := ParseMinutesFromPDF2Html_fields fileName pdf
    have hreg : ∀ es : List GoString,
        (detectedLabels es).foldl register ([], []) =
          ((es.foldl pdfElement PdfSeg.init).seg.Speakers,
            (es.foldl pdfElement PdfSeg.init).seg.heap) :=
      fun es => (pdf_registry es PdfSeg.init).symm
    obtain ⟨h1, h2, h3, h4, h5⟩ := registry_dedup (detectedLabels (elementsOf pdf.paragraphs))
    rw [hreg] at h1 h2 h3 h4 h5
    rw [hK, hH]
    refine ⟨h1, h2, h3, ?_, ?_⟩
    · intro pre e post l hes he hl
      have hd : detectedLabels (elementsOf pdf.paragraphs) =
          detectedLabels pre ++ l :: detectedLabels post := by
        rw [hes, detectedLabels_append, detectedLabels_cons, he]
      have := h4 (detectedLabels pre) (detectedLabels post) l hd hl
      rw [hreg] at this
      exact this
    · intro pre post l hes hl
      have hd : detectedLabels (elementsOf pdf.paragraphs) =
          detectedLabels pre ++ detectedLabels post := by
        rw [hes, detectedLabels_append]
      have := h5 (detectedLabels pre) (detectedLabels post) l hd hl
      rw [hreg] at this
      exact this

/-- C8. Speaker-reference invariant, in both segmenters: for every returned speech whose
`Speaker` is not nil, the address it holds is the one stored in `Minutes.Speakers` under the
`Label` of the speaker at that address. -/
theorem Speach_speaker_in_Speakers (fileName : GoString) (doc : HtmlFile) (pdf : Pdf2HtmlFile) :
    (∀ sp ∈ (ParseMinutesFromFile fileName doc).1.Speaches, ∀ p, sp.Speaker = some p →
      ∃ s, (ParseMinutesFromFile fileName doc).2[p]? = some s ∧
        (ParseMinutesFromFile fileName doc).1.Speakers.get s.Label = some p) ∧
    (∀ sp ∈ (ParseMinutesFromPDF2Html fileName pdf).1.Speaches, ∀ p, sp.Speaker = some p →
      ∃ s, (ParseMinutesFromPDF2Html fileName pdf).2[p]? = some s ∧
        (ParseMinutesFromPDF2Html fileName pdf).1.Speakers.get s.Label = some p) := by
  constructor
  · obtain ⟨hS, hK, hH⟩ := ParseMinutesFromFile_fields fileName doc
    rw [hS, hK, hH]
    intro sp hsp p hp
    obtain ⟨k, hk⟩ := file_speachInv (elementsOf doc.paragraphs) Seg.init speachInv_init sp hsp p hp
    have hinv := foldl_register_inv (detectedLabels (elementsOf doc.paragraphs)) _ regInv_init
    have hreg : (detectedLabels (elementsOf doc.paragraphs)).foldl register ([], []) = _ :=
      (file_registry (elementsOf doc.paragraphs) Seg.init).symm
    rw [hreg] at hinv
    exact ⟨Speaker.new k, hinv.2 k p hk, hk⟩
  · obtain ⟨hS, hK, hH⟩ := ParseMinutesFromPDF2Html_fields fileName pdf
    rw [hS, hK, hH]
    intro sp hsp p hp
    obtain ⟨k, hk⟩ :=
      pdf_speachInv (elementsOf pdf.paragraphs) PdfSeg.init speachInv_init sp hsp p hp
    have hinv := foldl_register_inv (detectedLabels (elementsOf pdf.paragraphs)) _ regInv_init
    have hreg : (detectedLabels (elementsOf pdf.paragraphs)).foldl register ([], []) = _ :=
      (pdf_registry (elementsOf pdf.paragraphs) PdfSeg.init).symm
    rw [hreg] at hinv
    exact ⟨Speaker.new k, hinv.2 k p hk, hk⟩

theorem kutentagFindString_eq_nil (talk : GoString) :
    kutentagFindString talk = [] ↔ (talk = [] ∨ endsInKuten talk = true) := by
  unfold kutentagFindString endsInKuten
  cases h : talk.getLast? with
  | none =>
    have : talk = [] := List.getLast?_eq_none_iff.1 h
    simp [this]
  | some c =>
    have : talk ≠ [] := by
      intro e; rw [e] at h; simp at h
    by_cases hc : c ∈ kutenChars <;> simp [hc, this]

theorem pdfElement_untagged (st : PdfSeg) (e : GoString) (htag : elementTag e = none) :
    pdfElement st e =
      (if (pdfTalk e).length > 0 then
        if st.speakerDefined then
          if kutentagFindString (pdfTalk e) ≠ [] then { st with prevTalk := pdfTalk e }
          else { st with seg := st.seg.appendTalk (st.prevTalk ++ pdfTalk e), prevTalk := [] }
        else st
      else st) := by
  unfold elementTag at htag
  unfold pdfElement pdfTalk
  cases hf : speakertagFindAll (TrimSpace e) with
  | nil => rfl
  | cons l ls => rw [hf] at htag; simp at htag

/-- C9, at the failing input: the fragment `本日は晴天`, buffered under the speech of `A`, is
prefixed onto the first utterance of the speech of `B`, and the speech of `A` is not
returned. -/
theorem pdf_stitching_crosses_speech :
    (ParseMinutesFromPDF2Html "no01wg057-1.html".toList crossingPdf).1.Speaches =
        [⟨some 1, ["本日は晴天了解。".toList]⟩] ∧
      (ParseMinutesFromPDF2Html "no01wg057-1.html".toList crossingPdf).1.Speakers =
        [("A".toList, 0), ("B".toList, 1)] := by
  decide

/-- C10. Scanned-variant stitching of one broken sentence: in a state with a speaker tag seen
(whatever the buffer holds, so also when it is empty), for two consecutive untagged elements whose cleaned texts are `a`, not
empty and not ending in one of `。）―─`, and `b`, ending in one of them, nothing is appended by
the first element (its text is buffered), and after the second the open speech has gained the
one utterance `a ++ b`, the closed speeches and the speakers are as before, and the buffer is
empty again. -/
theorem pdf_stitches_broken_sentence (st : PdfSeg) (ea eb : GoString)
    (hopen : st.speakerDefined = true)
    (hta : elementTag ea = none) (htb : elementTag eb = none)
    (ha : pdfTalk ea ≠ []) (hak : endsInKuten (pdfTalk ea) = false)
    (hbk : endsInKuten (pdfTalk eb) = true) :
    (pdfElement st ea).seg = st.seg ∧
      (pdfElement st ea).prevTalk = pdfTalk ea ∧
      (pdfElement (pdfElement st ea) eb).seg = st.seg.appendTalk (pdfTalk ea ++ pdfTalk eb) ∧
      (pdfElement (pdfElement st ea) eb).seg.currentSpeach.Talks =
        st.seg.currentSpeach.Talks ++ [pdfTalk ea ++ pdfTalk eb] ∧
      (pdfElement (pdfElement st ea) eb).seg.Speaches = st.seg.Speaches ∧
      (pdfElement (pdfElement st ea) eb).prevTalk = [] := by
  have hla : (pdfTalk ea).length > 0 := List.length_pos.2 ha
  have hfa : kutentagFindString (pdfTalk ea) ≠ [] := by
    intro h
    rcases (kutentagFindString_eq_nil _).1 h with h | h
    · exact ha h
    · rw [hak] at h; cases h
  have hb : pdfTalk eb ≠ [] := by
    intro h; rw [h] at hbk; simp [endsInKuten] at hbk
  have hlb : (pdfTalk eb).length > 0 := List.length_pos.2 hb
  have hfb : kutentagFindString (pdfTalk eb) = [] :=
    (kutentagFindString_eq_nil _).2 (Or.inr hbk)
  have h1 : pdfElement st ea = { st with prevTalk := pdfTalk ea } := by
    rw [pdfElement_untagged st ea hta, if_pos hla, hopen, if_pos rfl, if_pos hfa]
  have h2 : pdfElement (pdfElement st ea) eb =
      { st with seg := st.seg.appendTalk (pdfTalk ea ++ pdfTalk eb), prevTalk := [] } := by
    rw [pdfElement_untagged _ eb htb, if_pos hlb, h1]
    simp only [hopen, if_true, hfb, ne_eq, not_true_eq_false, if_false]
  rw [h2, h1]
  exact ⟨rfl, rfl, rfl, rfl, rfl, rfl⟩

/-- The witness of C10: after the tag `【議長】`, the elements `本日は晴天` and `なり。` give the
single utterance `本日は晴天なり。`. -/
theorem pdf_stitches_broken_sentence_witness :
    (pdfElement (pdfElement openedPdfSeg "本日は晴天".toList) "なり。".toList).seg.currentSpeach.Talks
      = [] ++ ["本日は晴天".toList ++ "なり。".toList] :=
  (pdf_stitches_broken_sentence openedPdfSeg "本日は晴天".toList "なり。".toList
    (by decide) (by decide) (by decide) (by decide) (by decide) (by decide)).2.2.2.1

/-- The example of the scanned-document stitching on a whole document: under the tag `【議長】`
the fragments `本日は晴天` and `なり。` are returned as the one utterance `本日は晴天なり。`. -/
theorem ParseMinutesFromPDF2Html_example :
    (ParseMinutesFromPDF2Html "no01wg057-1.html".toList
        { leadingParagraphs := []
          paragraphs := ["【議長】<br/>本日は晴天<br/>なり。".toList] }).1.Speaches =
      [⟨some 0, ["本日は晴天なり。".toList]⟩] := by
  decide

theorem getLast?_cons_getD {α : Type} (p t : α) (l : List α) :
    ((p :: l).getLast?).getD t = (l.getLast?).getD p := by
  cases l with
  | nil => rfl
  | cons x xs => rw [List.getLast?_cons_cons]; simp [List.getLast?_cons]

theorem foldl_kaigiTitleStep (ps : List GoString) (t : GoString) :
    ps.foldl kaigiTitleStep t = ((ps.filter kaigitagMatchString).getLast?).getD t := by
  induction ps generalizing t with
  | nil => rfl
  | cons p ps ih =>
    rw [List.foldl_cons, ih]
    unfold kaigiTitleStep
    by_cases hm : kaigitagMatchString p = true
    · rw [if_pos hm, List.filter_cons_of_pos hm, getLast?_cons_getD]
    · rw [if_neg hm, List.filter_cons_of_neg hm, List.append_nil]

/-- C11, counterexample: with two matching leading paragraphs the title is the second one, not
the first paragraph that matches. -/
theorem kaigiTitle_not_first_match :
    (twoTitlesPdf.leadingParagraphs.find? kaigitagMatchString) =
        some "教育課程部会ワーキンググループ（第1回）議事録".toList ∧
      (ParseMinutesFromPDF2Html "no01wg057-1.htm".toList twoTitlesPdf).1.Title =
        "教育課程部会ワーキンググループ（第2回）配付資料".toList ∧
      (ParseMinutesFromPDF2Html "no01wg057-1.htm".toList twoTitlesPdf).1.Title ≠
        (twoTitlesPdf.leadingParagraphs.find? kaigitagMatchString).getD [] := by
  decide

/-- C11, as amended. Scanned-variant title discovery: the title is the last of the scanned
leading paragraphs that matches the meeting-title pattern; so it is a matching paragraph after
which no scanned paragraph matches, the only matching paragraph when there is one, and the
empty string when none matches. -/
theorem kaigiTitle_last_match (fileName : GoString) (doc : Pdf2HtmlFile) :
    (ParseMinutesFromPDF2Html fileName doc).1.Title =
        ((doc.leadingParagraphs.filter kaigitagMatchString).getLast?).getD [] ∧
      (∀ pre p post, doc.leadingParagraphs = pre ++ p :: post →
        kaigitagMatchString p = true → (∀ q ∈ post, kaigitagMatchString q = false) →
        (ParseMinutesFromPDF2Html fileName doc).1.Title = p) ∧
      ((∀ p ∈ doc.leadingParagraphs, kaigitagMatchString p = false) →
        (ParseMinutesFromPDF2Html fileName doc).1.Title = []) := by
  have hT : (ParseMinutesFromPDF2Html fileName doc).1.Title =
      ((doc.leadingParagraphs.filter kaigitagMatchString).getLast?).getD [] := by
    simp only [ParseMinutesFromPDF2Html]
    exact foldl_kaigiTitleStep _ _
  refine ⟨hT, ?_, ?_⟩
  · intro pre p post hdoc hp hpost
    rw [hT, hdoc, List.filter_append, List.filter_cons_of_pos hp]
    have : post.filter kaigitagMatchString = [] := by
      rw [List.filter_eq_nil_iff]
      intro q hq
      rw [hpost q hq]; exact Bool.false_ne_true
    rw [this]
    simp
  · intro hnone
    rw [hT]
    have : doc.leadingParagraphs.filter kaigitagMatchString = [] := by
      rw [List.filter_eq_nil_iff]
      intro q hq
      rw [hnone q hq]; exact Bool.false_ne_true
    rw [this]
    rfl

theorem wginfotagTail_iff (rest : GoString) :
    wginfotagTail rest = true ↔
      ∃ mid post, rest = mid ++ ['h', 't', 'm'] ++ post ∧ mid ≠ [] ∧ '\n' ∉ mid := by
  induction rest with
  | nil =>
    constructor
    · intro h; cases h
    · rintro ⟨mid, post, h, hmid, -⟩
      cases mid with
      | nil => exact absurd rfl hmid
      | cons m ms => cases h
  | cons c rest ih =>
    unfold wginfotagTail
    simp only [Bool.and_eq_true, bne_iff_ne, ne_eq, Bool.or_eq_true]
    constructor
    · rintro ⟨hc, h | h⟩
      · obtain ⟨post, hpost⟩ := List.isPrefixOf_iff_prefix.1 h
        refine ⟨[c], post, ?_, by simp, ?_⟩
        · rw [← hpost]; rfl
        · simpa using fun e : '\n' = c => hc e.symm
      · obtain ⟨mid, post, hrest, -, hnl⟩ := ih.1 h
        refine ⟨c :: mid, post, ?_, by simp, ?_⟩
        · rw [hrest]; rfl
        · intro hmem
          rcases List.mem_cons.1 hmem with h1 | h1
          · exact hc h1.symm
          · exact hnl h1
    · rintro ⟨mid, post, h, hmid, hnl⟩
      cases mid with
      | nil => exact absurd rfl hmid
      | cons m ms =>
        simp only [List.cons_append, List.cons.injEq] at h
        obtain ⟨hcm, hrest⟩ := h
        have hc : ¬ c = '\n' := by
          intro e
          apply hnl
          rw [← hcm, e]
          exact List.mem_cons_self _ _
        refine ⟨hc, ?_⟩
        cases ms with
        | nil =>
          left
          rw [hrest]
          exact List.isPrefixOf_iff_prefix.2 ⟨post, rfl⟩
        | cons x xs =>
          right
          exact ih.2 ⟨x :: xs, post, by rw [hrest], by simp,
            fun hmem => hnl (List.mem_cons_of_mem _ hmem)⟩

theorem wginfotagAt_iff (s order id : GoString) :
    wginfotagAt s = some (order, id) ↔ WgMatchAt s order id := by
  constructor
  · intro h
    unfold wginfotagAt at h
    split at h
    · rename_i a b c d e rest
      by_cases hc : (isDigit a && isDigit b && isDigit c && isDigit d && isDigit e &&
          wginfotagTail rest) = true
      · rw [if_pos hc] at h
        simp only [Bool.and_eq_true] at hc
        obtain ⟨⟨⟨⟨⟨ha, hb⟩, hc3⟩, hd⟩, he⟩, ht⟩ := hc
        obtain ⟨mid, post, hrest, hmid, hnl⟩ := (wginfotagTail_iff rest).1 ht
        simp only [Option.some.injEq, Prod.mk.injEq] at h
        exact ⟨a, b, c, d, e, mid, post, by rw [hrest]; rfl, ha, hb, hc3, hd, he, hmid, hnl,
          h.1.symm, h.2.symm⟩
      · rw [if_neg hc] at h; cases h
    · cases h
  · rintro ⟨a, b, c, d, e, mid, post, hs, ha, hb, hc, hd, he, hmid, hnl, ho, hi⟩
    have ht : wginfotagTail (mid ++ ['h', 't', 'm'] ++ post) = true :=
      (wginfotagTail_iff _).2 ⟨mid, post, rfl, hmid, hnl⟩
    rw [hs, ho, hi]
    simp only [List.cons_append, List.nil_append, List.append_assoc] at ht ⊢
    simp [wginfotagAt, ha, hb, hc, hd, he, ht]

theorem wginfotagFind_leftmost (pre t : GoString) (r : GoString × GoString)
    (hat : wginfotagAt t = some r)
    (hpre : ∀ pre1 pre2, pre = pre1 ++ pre2 → pre2 ≠ [] → wginfotagAt (pre2 ++ t) = none) :
    wginfotagFind (pre ++ t) = some r := by
  induction pre with
  | nil =>
    cases t with
    | nil => simp [wginfotagAt] at hat
    | cons c rest =>
      rw [List.nil_append]
      unfold wginfotagFind
      rw [hat]
  | cons x xs ih =>
    have h0 := hpre [] (x :: xs) rfl (by simp)
    rw [List.cons_append] at h0 ⊢
    unfold wginfotagFind
    rw [h0]
    exact ih (fun pre1 pre2 h1 h2 => hpre (x :: pre1) pre2 (by rw [h1]; rfl) h2)

theorem wginfotagFind_none (s : GoString)
    (h : ∀ pre t, s = pre ++ t → wginfotagAt t = none) : wginfotagFind s = none := by
  induction s with
  | nil => rfl
  | cons c rest ih =>
    unfold wginfotagFind
    rw [h [] (c :: rest) rfl]
    exact ih (fun pre t hs => h (c :: pre) t (by rw [hs]; rfl))

theorem wginfotagAt_eq_none (t : GoString) (h : ∀ o i, ¬ WgMatchAt t o i) :
    wginfotagAt t = none := by
  cases hat : wginfotagAt t with
  | none => rfl
  | some r => exact absurd ((wginfotagAt_iff t r.1 r.2).1 hat) (h r.1 r.2)

theorem WgMatchAt_substring (pre t o i : GoString) (h : WgMatchAt t o i) :
    HasWgSubstring (pre ++ t) := by
  obtain ⟨a, b, c, d, e, mid, post, hs, ha, hb, hc, hd, he, -, -, -, -⟩ := h
  exact ⟨pre, a, b, c, d, e, '-' :: (mid ++ ['h', 't', 'm'] ++ post), by rw [hs]; simp,
    ha, hb, hc, hd, he⟩

/-- C12, counterexample: the file name `no01wg057.html` contains `no01wg057` before its
extension, yet both fields are empty in both variants: the pattern of the code asks for a
hyphen after the digits. -/
theorem wginfo_needs_hyphen :
    HasWgSubstring "no01wg057.html".toList ∧
      (ParseMinutesFromFile "no01wg057.html".toList emptyHtmlFile).1.WorkingGroupOrder = [] ∧
      (ParseMinutesFromFile "no01wg057.html".toList emptyHtmlFile).1.WorkingGroupID = [] ∧
      (ParseMinutesFromPDF2Html "no01wg057.html".toList emptyPdf).1.WorkingGroupOrder = [] ∧
      (ParseMinutesFromPDF2Html "no01wg057.html".toList emptyPdf).1.WorkingGroupID = [] ∧
      (ParseMinutesFromFile "no01wg057.html".toList emptyHtmlFile).1.WorkingGroupOrder ≠
        "01".toList := by
  refine ⟨⟨[], '0', '1', '0', '5', '7', ".html".toList, by decide, by decide, by decide,
    by decide, by decide, by decide⟩, by decide, by decide, by decide, by decide, by decide⟩

/-- C12, as amended. File name metadata, in both variants: when the pattern
`no<2 digits>wg<3 digits>-<one or more characters of the line>htm` occurs in the file name,
`WorkingGroupOrder` and `WorkingGroupID` are the two and the three digits of its leftmost
occurrence; when it does not occur, so in particular when the file name does not contain
`no<2 digits>wg<3 digits>`, both fields are the empty string; a `Minutes` is returned either
way. -/
theorem wginfo_from_fileName (fileName : GoString) (doc : HtmlFile) (pdf : Pdf2HtmlFile) :
    (∀ pre t order id, fileName = pre ++ t → WgMatchAt t order id →
      (∀ pre1 pre2 o i, pre = pre1 ++ pre2 → pre2 ≠ [] → ¬ WgMatchAt (pre2 ++ t) o i) →
      (ParseMinutesFromFile fileName doc).1.WorkingGroupOrder = order ∧
        (ParseMinutesFromFile fileName doc).1.WorkingGroupID = id ∧
        (ParseMinutesFromPDF2Html fileName pdf).1.WorkingGroupOrder = order ∧
        (ParseMinutesFromPDF2Html fileName pdf).1.WorkingGroupID = id) ∧
    ((∀ pre t o i, fileName = pre ++ t → ¬ WgMatchAt t o i) →
      (ParseMinutesFromFile fileName doc).1.WorkingGroupOrder = [] ∧
        (ParseMinutesFromFile fileName doc).1.WorkingGroupID = [] ∧
        (ParseMinutesFromPDF2Html fileName pdf).1.WorkingGroupOrder = [] ∧
        (ParseMinutesFromPDF2Html fileName pdf).1.WorkingGroupID = []) ∧
    (¬ HasWgSubstring fileName →
      (ParseMinutesFromFile fileName doc).1.WorkingGroupOrder = [] ∧
        (ParseMinutesFromFile fileName doc).1.WorkingGroupID = [] ∧
        (ParseMinutesFromPDF2Html fileName pdf).1.WorkingGroupOrder = [] ∧
        (ParseMinutesFromPDF2Html fileName pdf).1.WorkingGroupID = []) := by
  have hnone : (∀ pre t o i, fileName = pre ++ t → ¬ WgMatchAt t o i) →
      (ParseMinutesFromFile fileName doc).1.WorkingGroupOrder = [] ∧
        (ParseMinutesFromFile fileName doc).1.WorkingGroupID = [] ∧
        (ParseMinutesFromPDF2Html fileName pdf).1.WorkingGroupOrder = [] ∧
        (ParseMinutesFromPDF2Html fileName pdf).1.WorkingGroupID = [] := by
    intro h
    have hf : wginfotagFind fileName = none :=
      wginfotagFind_none fileName
        (fun pre t hs => wginfotagAt_eq_none t (fun o i => h pre t o i hs))
    simp only [ParseMinutesFromFile, ParseMinutesFromPDF2Html, hf, and_self]
  refine ⟨?_, hnone, ?_⟩
  · intro pre t order id hs hm hleft
    have hf : wginfotagFind fileName = some (order, id) := by
      rw [hs]
      exact wginfotagFind_leftmost pre t (order, id) ((wginfotagAt_iff t order id).2 hm)
        (fun pre1 pre2 h1 h2 =>
          wginfotagAt_eq_none _ (fun o i => hleft pre1 pre2 o i h1 h2))
    simp only [ParseMinutesFromFile, ParseMinutesFromPDF2Html, hf, and_self]
  · intro hsub
    apply hnone
    intro pre t o i hs hm
    exact hsub (hs ▸ WgMatchAt_substring pre t o i hm)

/-- The example of C12 as amended: a file name written by the downloader, `no01wg057-1363293.htm`
under its directory, gives the order `01` and the identifier `057`. -/
theorem wginfo_example :
    (ParseMinutesFromFile "data/html/no01wg057-1363293.htm".toList emptyHtmlFile).1.WorkingGroupOrder
        = "01".toList ∧
      (ParseMinutesFromFile "data/html/no01wg057-1363293.htm".toList emptyHtmlFile).1.WorkingGroupID
        = "057".toList := by
  decide

theorem pdfElement_tagged (st : PdfSeg) (e l : GoString) (htag : elementTag e = some l) :
    pdfElement st e =
      (if (pdfTalk e).length > 0 then
        if kutentagFindString (pdfTalk e) ≠ [] then
          { seg := st.seg.openSpeach l, speakerDefined := true, prevTalk := pdfTalk e }
        else
          { seg := (st.seg.openSpeach l).appendTalk (st.prevTalk ++ pdfTalk e),
            speakerDefined := true, prevTalk := [] }
      else { seg := st.seg.openSpeach l, speakerDefined := true, prevTalk := st.prevTalk }) := by
  unfold elementTag at htag
  unfold pdfElement pdfTalk
  cases hf : speakertagFindAll (TrimSpace e) with
  | nil => rw [hf] at htag; simp at htag
  | cons l2 ls =>
    rw [hf] at htag
    simp only [List.head?_cons, Option.some.injEq] at htag
    subst htag
    simp only [if_true]

theorem pdf_untagged_fixed (pre : List GoString) (st : PdfSeg)
    (hst : st.speakerDefined = false) (hpre : ∀ e ∈ pre, elementTag e = none) :
    pre.foldl pdfElement st = st := by
  induction pre with
  | nil => rfl
  | cons e es ih =>
    have he : pdfElement st e = st := by
      rw [pdfElement_untagged st e (hpre e (List.mem_cons_self _ _)), hst]
      simp
    rw [List.foldl_cons, he]
    exact ih (fun x hx => hpre x (List.mem_cons_of_mem _ hx))

theorem openSpeach_current_some (st : Seg) (l : GoString) :
    ∃ p, (st.openSpeach l).currentSpeach = ⟨some p, []⟩ := by
  have h1 := openSpeach_current st l
  have h2 := congrArg Prod.fst (openSpeach_register st l)
  simp only at h2
  rw [h2, register_get_self] at h1
  exact ⟨_, h1⟩

theorem openSpeach_closedNonEmpty (st : Seg) (l : GoString) (h : ClosedNonEmpty st) :
    ClosedNonEmpty (st.openSpeach l) := by
  intro sp hsp
  rw [openSpeach_Speaches] at hsp
  by_cases hc : st.currentSpeach.Talks.length > 0
  · rw [if_pos hc] at hsp
    rcases List.mem_append.1 hsp with h1 | h1
    · exact h sp h1
    · rw [List.mem_singleton] at h1
      rw [h1]
      exact List.length_pos.1 hc
  · rw [if_neg hc] at hsp
    exact h sp hsp

theorem foldl_appendTalk_closedNonEmpty (talks : List GoString) (st : Seg)
    (h : ClosedNonEmpty st) : ClosedNonEmpty (talks.foldl Seg.appendTalk st) := by
  intro sp hsp
  rw [(foldl_appendTalk_fields talks st).2.2.1] at hsp
  exact h sp hsp

theorem file_closedNonEmpty (es : List GoString) (st : Seg) (h : ClosedNonEmpty st) :
    ClosedNonEmpty (es.foldl fileElement st) := by
  induction es generalizing st with
  | nil => exact h
  | cons e es ih =>
    rw [List.foldl_cons]
    apply ih
    obtain ⟨talks, ht⟩ := fileElement_seg st e
    rw [ht]
    cases elementTag e with
    | none => exact foldl_appendTalk_closedNonEmpty talks _ h
    | some l =>
      exact foldl_appendTalk_closedNonEmpty talks _ (openSpeach_closedNonEmpty st l h)

theorem pdf_closedNonEmpty (es : List GoString) (st : PdfSeg) (h : ClosedNonEmpty st.seg) :
    ClosedNonEmpty (es.foldl pdfElement st).seg := by
  induction es generalizing st with
  | nil => exact h
  | cons e es ih =>
    rw [List.foldl_cons]
    apply ih
    obtain ⟨talks, ht⟩ := pdfElement_seg st e
    rw [ht]
    cases elementTag e with
    | none => exact foldl_appendTalk_closedNonEmpty talks _ h
    | some l =>
      exact foldl_appendTalk_closedNonEmpty talks _ (openSpeach_closedNonEmpty st.seg l h)

theorem closedNonEmpty_init : ClosedNonEmpty Seg.init := by
  intro sp hsp
  simp [Seg.init] at hsp

theorem file_current_speaker (es : List GoString) (st : Seg) :
    (es.foldl fileElement st).currentSpeach.Speaker = none ↔
      (detectedLabels es = [] ∧ st.currentSpeach.Speaker = none) := by
  induction es generalizing st with
  | nil => simp [detectedLabels]
  | cons e es ih =>
    rw [List.foldl_cons, ih, detectedLabels_cons]
    cases h : elementTag e with
    | none =>
      rw [(fileElement_none st e h).2]
    | some l =>
      obtain ⟨p, hp⟩ := fileElement_get_tag st e l h
      rw [(fileElement_some st e l h).2, hp]
      simp

theorem file_current_talks (es : List GoString) (st : Seg) (h : detectedLabels es = []) :
    (es.foldl fileElement st).currentSpeach.Talks =
      st.currentSpeach.Talks ++ (es.map fileTalk).filter (fun t => decide (0 < t.length)) := by
  induction es generalizing st with
  | nil => simp
  | cons e es ih =>
    rw [detectedLabels_cons] at h
    cases htag : elementTag e with
    | some l => rw [htag] at h; cases h
    | none =>
      rw [htag] at h
      rw [List.foldl_cons, ih _ h, (fileElement_none st e htag).2]
      unfold nonEmptyTalk
      by_cases ht : 0 < (fileTalk e).length
      · simp [ht, List.filter_cons]
      · simp [ht, List.filter_cons]

theorem pdf_current_speaker (es : List GoString) (st : PdfSeg) :
    (es.foldl pdfElement st).seg.currentSpeach.Speaker = none ↔
      (detectedLabels es = [] ∧ st.seg.currentSpeach.Speaker = none) := by
  induction es generalizing st with
  | nil => simp [detectedLabels]
  | cons e es ih =>
    rw [List.foldl_cons, ih, detectedLabels_cons]
    obtain ⟨talks, ht⟩ := pdfElement_seg st e
    rw [ht]
    cases h : elementTag e with
    | none =>
      dsimp only
      rw [(foldl_appendTalk_fields talks _).2.2.2]
    | some l =>
      obtain ⟨p, hp⟩ := openSpeach_current_some st.seg l
      dsimp only
      rw [(foldl_appendTalk_fields talks _).2.2.2, hp]
      simp

theorem pdfElement_speakerOrEmpty (st : PdfSeg) (e : GoString) (h : SpeakerOrEmpty st) :
    SpeakerOrEmpty (pdfElement st e) := by
  have hopen : ∀ l, ∀ sp ∈ (st.seg.openSpeach l).Speaches, sp.Speaker ≠ none := by
    intro l sp hsp
    rw [openSpeach_Speaches] at hsp
    by_cases hc : st.seg.currentSpeach.Talks.length > 0
    · rw [if_pos hc] at hsp
      rcases List.mem_append.1 hsp with h1 | h1
      · exact h.1 sp h1
      · rw [List.mem_singleton] at h1
        rw [h1]
        intro hn
        have := (h.2 hn).2
        rw [this] at hc
        exact absurd hc (by simp)
    · rw [if_neg hc] at hsp
      exact h.1 sp hsp
  cases htag : elementTag e with
  | some l =>
    obtain ⟨p, hp⟩ := openSpeach_current_some st.seg l
    rw [pdfElement_tagged st e l htag]
    by_cases h1 : (pdfTalk e).length > 0
    · rw [if_pos h1]
      by_cases h2 : kutentagFindString (pdfTalk e) ≠ []
      · rw [if_pos h2]
        exact ⟨hopen l, fun hn => by rw [hp] at hn; cases hn⟩
      · rw [if_neg h2]
        refine ⟨hopen l, fun hn => ?_⟩
        rw [(appendTalk_fields _ _).2.2.2, hp] at hn
        cases hn
    · rw [if_neg h1]
      exact ⟨hopen l, fun hn => by rw [hp] at hn; cases hn⟩
  | none =>
    rw [pdfElement_untagged st e htag]
    by_cases h1 : (pdfTalk e).length > 0
    · rw [if_pos h1]
      by_cases h2 : st.speakerDefined = true
      · rw [if_pos h2]
        by_cases h3 : kutentagFindString (pdfTalk e) ≠ []
        · rw [if_pos h3]; exact h
        · rw [if_neg h3]
          refine ⟨h.1, fun hn => ?_⟩
          rw [(appendTalk_fields _ _).2.2.2] at hn
          have := (h.2 hn).1
          rw [h2] at this
          cases this
      · rw [if_neg h2]; exact h
    · rw [if_neg h1]; exact h

theorem pdf_speakerOrEmpty (es : List GoString) (st : PdfSeg) (h : SpeakerOrEmpty st) :
    SpeakerOrEmpty (es.foldl pdfElement st) := by
  induction es generalizing st with
  | nil => exact h
  | cons e es ih => exact ih _ (pdfElement_speakerOrEmpty st e h)

theorem speakerOrEmpty_init : SpeakerOrEmpty PdfSeg.init := by
  refine ⟨?_, fun _ => ⟨rfl, rfl⟩⟩
  intro sp hsp
  simp [PdfSeg.init, Seg.init] at hsp

/-- C13, counterexample: a document without paragraphs gives, in both variants, the single
speech that has no speaker and no utterance. -/
theorem empty_document_keeps_empty_speach :
    (ParseMinutesFromFile "no01wg057-1.htm".toList emptyHtmlFile).1.Speaches = [⟨none, []⟩] ∧
      (ParseMinutesFromPDF2Html "no01wg057-1.htm".toList emptyPdf).1.Speaches = [⟨none, []⟩] := by
  decide

/-- C13, as amended. In both variants no returned speech other than the last one is without
speaker and without utterance (the empty initial speech is not kept when a tag opens the next
one); the last speech is appended as it is, and it is without speaker and without utterance
exactly when no speaker tag is detected and, in the direct variant, no element has a
non-empty text. -/
theorem no_empty_speakerless_speach_but_last (fileName : GoString) (doc : HtmlFile)
    (pdf : Pdf2HtmlFile) :
    (∀ sp ∈ (ParseMinutesFromFile fileName doc).1.Speaches.dropLast,
        ¬ (sp.Speaker = none ∧ sp.Talks = [])) ∧
      ((ParseMinutesFromFile fileName doc).1.Speaches.getLast? = some ⟨none, []⟩ ↔
        (detectedLabels (elementsOf doc.paragraphs) = [] ∧
          ∀ e ∈ elementsOf doc.paragraphs, fileTalk e = [])) ∧
      (∀ sp ∈ (ParseMinutesFromPDF2Html fileName pdf).1.Speaches.dropLast,
        ¬ (sp.Speaker = none ∧ sp.Talks = [])) ∧
      ((ParseMinutesFromPDF2Html fileName pdf).1.Speaches.getLast? = some ⟨none, []⟩ ↔
        detectedLabels (elementsOf pdf.paragraphs) = []) := by
  obtain ⟨hS, -, -⟩ := ParseMinutesFromFile_fields fileName doc
  obtain ⟨hP, -, -⟩ := ParseMinutesFromPDF2Html_fields fileName pdf
  rw [hS, hP]
  simp only [List.dropLast_concat, List.getLast?_concat, Option.some.injEq]
  refine ⟨?_, ?_, ?_, ?_⟩
  · intro sp hsp h
    exact file_closedNonEmpty _ _ closedNonEmpty_init sp hsp h.2
  · have hspk := file_current_speaker (elementsOf doc.paragraphs) Seg.init
    constructor
    · intro h
      have h1 : detectedLabels (elementsOf doc.paragraphs) = [] :=
        (hspk.1 (by rw [h])).1
      refine ⟨h1, ?_⟩
      have h2 := file_current_talks (elementsOf doc.paragraphs) Seg.init h1
      rw [h] at h2
      simp only [Seg.init, Speach.new, List.nil_append] at h2
      intro e he
      have h3 := (List.filter_eq_nil_iff.1 h2.symm) (fileTalk e) (List.mem_map.2 ⟨e, he, rfl⟩)
      cases hf : fileTalk e with
      | nil => rfl
      | cons a b => rw [hf] at h3; simp at h3
    · rintro ⟨h1, h2⟩
      have hs := hspk.2 ⟨h1, rfl⟩
      have hnil : ((elementsOf doc.paragraphs).map fileTalk).filter
          (fun t => decide (0 < t.length)) = [] := by
        rw [List.filter_eq_nil_iff]
        intro t ht2
        obtain ⟨e, he, het⟩ := List.mem_map.1 ht2
        rw [← het, h2 e he]
        simp
      have ht : ((elementsOf doc.paragraphs).foldl fileElement Seg.init).currentSpeach.Talks
          = [] := by
        rw [file_current_talks (elementsOf doc.paragraphs) Seg.init h1, hnil]
        rfl
      have hcur : ∀ sp : Speach, sp.Speaker = none → sp.Talks = [] → sp = ⟨none, []⟩ := by
        intro sp a b
        cases sp
        simp_all
      exact hcur _ hs ht
  · intro sp hsp h
    exact pdf_closedNonEmpty _ _ closedNonEmpty_init sp hsp h.2
  · constructor
    · intro h
      exact ((pdf_current_speaker (elementsOf pdf.paragraphs) PdfSeg.init).1 (by rw [h])).1
    · intro h
      have hfix := pdf_untagged_fixed (elementsOf pdf.paragraphs) PdfSeg.init rfl (by
        intro e he
        cases htag : elementTag e with
        | none => rfl
        | some l =>
          have : l ∈ detectedLabels (elementsOf pdf.paragraphs) :=
            List.mem_filterMap.2 ⟨e, he, htag⟩
          rw [h] at this
          cases this)
      rw [hfix]
      rfl

/-- C14. Speech count and trailing flush, in both variants: `SpeachCount` is the length of
`Speaches`, the final open speech is its last element, so the length is at least 1, and
every speech other than the last one has at least one utterance. -/
theorem SpeachCount_and_trailing_flush (fileName : GoString) (doc : HtmlFile)
    (pdf : Pdf2HtmlFile) :
    ((ParseMinutesFromFile fileName doc).1.SpeachCount =
          (ParseMinutesFromFile fileName doc).1.Speaches.length ∧
        1 ≤ (ParseMinutesFromFile fileName doc).1.Speaches.length ∧
        (ParseMinutesFromFile fileName doc).1.Speaches.getLast? =
          some ((elementsOf doc.paragraphs).foldl fileElement Seg.init).currentSpeach ∧
        ∀ sp ∈ (ParseMinutesFromFile fileName doc).1.Speaches.dropLast, 1 ≤ sp.Talks.length) ∧
      ((ParseMinutesFromPDF2Html fileName pdf).1.SpeachCount =
          (ParseMinutesFromPDF2Html fileName pdf).1.Speaches.length ∧
        1 ≤ (ParseMinutesFromPDF2Html fileName pdf).1.Speaches.length ∧
        (ParseMinutesFromPDF2Html fileName pdf).1.Speaches.getLast? =
          some ((elementsOf pdf.paragraphs).foldl pdfElement PdfSeg.init).seg.currentSpeach ∧
        ∀ sp ∈ (ParseMinutesFromPDF2Html fileName pdf).1.Speaches.dropLast,
          1 ≤ sp.Talks.length) := by
  obtain ⟨hS, -, -⟩ := ParseMinutesFromFile_fields fileName doc
  obtain ⟨hP, -, -⟩ := ParseMinutesFromPDF2Html_fields fileName pdf
  have hc1 : (ParseMinutesFromFile fileName doc).1.SpeachCount =
      (ParseMinutesFromFile fileName doc).1.Speaches.length := rfl
  have hc2 : (ParseMinutesFromPDF2Html fileName pdf).1.SpeachCount =
      (ParseMinutesFromPDF2Html fileName pdf).1.Speaches.length := rfl
  refine ⟨⟨hc1, ?_, ?_, ?_⟩, ⟨hc2, ?_, ?_, ?_⟩⟩
  · rw [hS]; simp
  · rw [hS]; simp
  · rw [hS, List.dropLast_concat]
    intro sp hsp
    exact List.length_pos.2 (file_closedNonEmpty _ _ closedNonEmpty_init sp hsp)
  · rw [hP]; simp
  · rw [hP]; simp
  · rw [hP, List.dropLast_concat]
    intro sp hsp
    exact List.length_pos.2 (pdf_closedNonEmpty _ _ closedNonEmpty_init sp hsp)

/-- C15. The scanned variant discards what precedes the first speaker tag: after any run of
leading elements without a tag the loop is in its initial state (no speech, no utterance, an
empty buffer), so the returned speeches and speakers are those computed from the remaining
elements alone; and every returned speech that has an utterance has a speaker. -/
theorem pdf_discards_before_first_tag (fileName : GoString) (pdf : Pdf2HtmlFile) :
    (∀ pre rest, elementsOf pdf.paragraphs = pre ++ rest → (∀ e ∈ pre, elementTag e = none) →
        pre.foldl pdfElement PdfSeg.init = PdfSeg.init ∧
        (pre.foldl pdfElement PdfSeg.init).prevTalk = [] ∧
        (ParseMinutesFromPDF2Html fileName pdf).1.Speaches =
          (rest.foldl pdfElement PdfSeg.init).seg.Speaches ++
            [(rest.foldl pdfElement PdfSeg.init).seg.currentSpeach] ∧
        (ParseMinutesFromPDF2Html fileName pdf).1.Speakers =
          (rest.foldl pdfElement PdfSeg.init).seg.Speakers) ∧
      (∀ sp ∈ (ParseMinutesFromPDF2Html fileName pdf).1.Speaches,
        sp.Talks ≠ [] → sp.Speaker ≠ none) := by
  obtain ⟨hP, hK, -⟩ := ParseMinutesFromPDF2Html_fields fileName pdf
  constructor
  · intro pre rest hes hpre
    have hfix := pdf_untagged_fixed pre PdfSeg.init rfl hpre
    refine ⟨hfix, by rw [hfix]; rfl, ?_, ?_⟩
    · rw [hP, hes, List.foldl_append, hfix]
    · rw [hK, hes, List.foldl_append, hfix]
  · rw [hP]
    intro sp hsp htalks
    have hinv := pdf_speakerOrEmpty (elementsOf pdf.paragraphs) PdfSeg.init speakerOrEmpty_init
    rcases List.mem_append.1 hsp with h1 | h1
    · exact hinv.1 sp h1
    · rw [List.mem_singleton] at h1
      intro hn
      rw [h1] at hn htalks
      exact htalks (hinv.2 hn).2

theorem tdNextText_header (c : Cell) (rest : Row) (hc : c.isHeader = true) :
    tdNextText (c :: rest) = tdNextText rest := by
  cases rest with
  | nil => rfl
  | cons next rest => simp [tdNextText, hc]

theorem tdNextText_regular (hs : Row) (name affiliation : GoString)
    (hhs : ∀ c ∈ hs, c.isHeader = true) :
    tdNextText (hs ++ [⟨false, name⟩, ⟨false, affiliation⟩]) = affiliation := by
  induction hs with
  | nil => simp [tdNextText]
  | cons h hs ih =>
    rw [List.cons_append, tdNextText_header h _ (hhs h (List.mem_cons_self _ _))]
    exact ih (fun c hc => hhs c (List.mem_cons_of_mem _ hc))

/-- The row mapping of `ParseMemberListFromHTML`: one person per row, in row order, with the
identifier generated for the row, the role of the header cell or the default role, the name of
the first data cell without white space, and the label made of name and role; for a row of
header cells followed by two data cells the affiliation is the text of the second data cell,
untrimmed. -/
theorem ParseMemberListFromHTML_rows (uuid : Nat → GoString) (rows : List Row) :
    (ParseMemberListFromHTML uuid rows).Members.length = rows.length ∧
      (∀ i row, rows[i]? = some row →
        ∃ p, (ParseMemberListFromHTML uuid rows).Members[i]? = some p ∧
          p.ID = uuid i ∧
          p.Role = (if thFirstText row = [] then defaultRole else thFirstText row) ∧
          p.Name = (tdFirstText row).filter (fun c => !isSpacePattern c) ∧
          p.Label = p.Name ++ p.Role ∧
          (∀ hs name affiliation, (∀ c ∈ hs, c.isHeader = true) →
            row = hs ++ [⟨false, name⟩, ⟨false, affiliation⟩] →
            p.Affiliation = affiliation)) := by
  constructor
  · simp [ParseMemberListFromHTML]
  · intro i row hrow
    refine ⟨memberOfRow (uuid i) row, ?_, rfl, ?_, rfl, rfl, ?_⟩
    · simp [ParseMemberListFromHTML, List.getElem?_map, List.getElem?_enum, hrow]
    · simp only [memberOfRow]
      cases h : thFirstText row with
      | nil => simp
      | cons a b => simp
    · intro hs name affiliation hhs hshape
      simp only [memberOfRow]
      rw [hshape]
      exact tdNextText_regular hs name affiliation hhs

/-- The roster example of the specification: two persons, the first with the default role
`委員` and the label `山田花子委員`. -/
theorem ParseMemberListFromHTML_example (uuid : Nat → GoString) :
    (ParseMemberListFromHTML uuid exampleRoster).Members =
      [{ ID := uuid 0, Label := "山田花子委員".toList, Name := "山田花子".toList,
         Affiliation := "X大学".toList, Role := "委員".toList },
       { ID := uuid 1, Label := "鈴木一郎委員".toList, Name := "鈴木一郎".toList,
         Affiliation := "Y大学".toList, Role := "委員".toList }] := by
  rfl

/-- C16, at the failing input: for a row with a third data cell the affiliation is the text of
the second and of the third data cell joined, `X大学教授`, where the data cell that follows the
first one holds `X大学`; role, name and label are as claimed. -/
theorem Affiliation_joins_following_cells (uuid : Nat → GoString) :
    (ParseMemberListFromHTML uuid wideRoster).Members =
        [{ ID := uuid 0, Label := "山田花子委員".toList, Name := "山田花子".toList,
           Affiliation := "X大学教授".toList, Role := "委員".toList }] ∧
      wideRoster.map tdSecond = [some ⟨false, "X大学".toList⟩] := by
  constructor <;> rfl

/-- C17, at the failing inputs: of the run `本日は`, `晴天` only the second fragment reaches the
utterance, `晴天なり。`, where the cleaned fragments from the first tag on read `本日は晴天なり。`;
and the fragment `本日は晴天` still buffered at the end of the document is in no utterance. -/
theorem pdf_stitching_loses_text :
    (ParseMinutesFromPDF2Html "no01wg057-1.htm".toList lostRunPdf).1.Speaches =
        [⟨some 0, ["晴天なり。".toList]⟩] ∧
      joinedTalks (ParseMinutesFromPDF2Html "no01wg057-1.htm".toList lostRunPdf).1.Speaches ≠
        cleanedFromFirstTag (elementsOf lostRunPdf.paragraphs) ∧
      cleanedFromFirstTag (elementsOf lostRunPdf.paragraphs) = "本日は晴天なり。".toList ∧
      (ParseMinutesFromPDF2Html "no01wg057-1.htm".toList trailingPdf).1.Speaches =
        [⟨some 0, ["了解。".toList]⟩] ∧
      joinedTalks (ParseMinutesFromPDF2Html "no01wg057-1.htm".toList trailingPdf).1.Speaches ≠
        cleanedFromFirstTag (elementsOf trailingPdf.paragraphs) ∧
      cleanedFromFirstTag (elementsOf trailingPdf.paragraphs) = "了解。本日は晴天".toList := by
  decide

theorem speakertagClose_iff (s cs : GoString) :
    speakertagClose s = some cs ↔
      ∃ tail, s = cs ++ '】' :: tail ∧ '】' ∉ cs ∧ '\n' ∉ cs := by
  induction s generalizing cs with
  | nil =>
    constructor
    · intro h; cases h
    · rintro ⟨tail, h, -, -⟩
      cases cs <;> cases h
  | cons c rest ih =>
    unfold speakertagClose
    by_cases h1 : c = '】'
    · rw [if_pos h1]
      constructor
      · intro h
        simp only [Option.some.injEq] at h
        exact ⟨rest, by rw [← h, h1]; rfl, by rw [← h]; simp, by rw [← h]; simp⟩
      · rintro ⟨tail, h, hn, -⟩
        cases cs with
        | nil => rfl
        | cons x xs =>
          simp only [List.cons_append, List.cons.injEq] at h
          exact absurd (by rw [← h.1.symm.trans h1]; exact List.mem_cons_self _ _) hn
    · rw [if_neg h1]
      by_cases h2 : c = '\n'
      · rw [if_pos h2]
        constructor
        · intro h; cases h
        · rintro ⟨tail, h, -, hn⟩
          cases cs with
          | nil => simp only [List.nil_append, List.cons.injEq] at h; exact absurd h.1 h1
          | cons x xs =>
            simp only [List.cons_append, List.cons.injEq] at h
            exact absurd (by rw [← h.1.symm.trans h2]; exact List.mem_cons_self _ _) hn
      · rw [if_neg h2]
        constructor
        · intro h
          cases hr : speakertagClose rest with
          | none => rw [hr] at h; cases h
          | some cs2 =>
            rw [hr] at h
            simp only [Option.map_some', Option.some.injEq] at h
            obtain ⟨tail, ht, hn1, hn2⟩ := (ih cs2).1 hr
            refine ⟨tail, by rw [← h, ht]; rfl, ?_, ?_⟩
            · rw [← h]
              intro hm
              rcases List.mem_cons.1 hm with e | e
              · exact h1 e.symm
              · exact hn1 e
            · rw [← h]
              intro hm
              rcases List.mem_cons.1 hm with e | e
              · exact h2 e.symm
              · exact hn2 e
        · rintro ⟨tail, h, hn1, hn2⟩
          cases cs with
          | nil => simp only [List.nil_append, List.cons.injEq] at h; exact absurd h.1 h1
          | cons x xs =>
            simp only [List.cons_append, List.cons.injEq] at h
            have hr : speakertagClose rest = some xs :=
              (ih xs).2 ⟨tail, h.2, fun hm => hn1 (List.mem_cons_of_mem _ hm),
                fun hm => hn2 (List.mem_cons_of_mem _ hm)⟩
            rw [hr, h.1]
            rfl

theorem speakertagLabel_iff (s l : GoString) :
    speakertagLabel s = some l ↔
      ∃ c cs tail, l = c :: cs ∧ s = c :: cs ++ '】' :: tail ∧ c ≠ '\n' ∧ '】' ∉ cs ∧
        '\n' ∉ cs := by
  cases s with
  | nil =>
    constructor
    · intro h; cases h
    · rintro ⟨c, cs, tail, -, h, -⟩; cases h
  | cons c rest =>
    rw [show speakertagLabel (c :: rest) =
      (if c = '\n' then none else (speakertagClose rest).map (fun l => c :: l)) from rfl]
    by_cases h2 : c = '\n'
    · rw [if_pos h2]
      constructor
      · intro h; cases h
      · rintro ⟨c2, cs, tail, -, h, hc, -⟩
        simp only [List.cons_append, List.cons.injEq] at h
        exact absurd (h.1 ▸ h2) hc
    · rw [if_neg h2]
      constructor
      · intro h
        cases hr : speakertagClose rest with
        | none => rw [hr] at h; cases h
        | some cs =>
          rw [hr] at h
          simp only [Option.map_some', Option.some.injEq] at h
          obtain ⟨tail, ht, hn1, hn2⟩ := (speakertagClose_iff rest cs).1 hr
          exact ⟨c, cs, tail, h.symm, by rw [ht]; rfl, h2, hn1, hn2⟩
      · rintro ⟨c2, cs, tail, hl, h, -, hn1, hn2⟩
        simp only [List.cons_append, List.cons.injEq] at h
        have hr : speakertagClose rest = some cs :=
          (speakertagClose_iff rest cs).2 ⟨tail, h.2, hn1, hn2⟩
        rw [hr, hl, h.1]
        rfl

theorem prefix_of_line (a rest u tl : GoString) (h : a ++ rest = u ++ tl) (ha : '\n' ∉ a)
    (htl : tl = [] ∨ ∃ more, tl = '\n' :: more) : ∃ t, u = a ++ t := by
  induction a generalizing u with
  | nil => exact ⟨u, rfl⟩
  | cons x xs ih =>
    cases u with
    | nil =>
      rcases htl with e | ⟨more, e⟩
      · rw [e] at h; cases h
      · rw [e] at h
        simp only [List.cons_append, List.nil_append, List.cons.injEq] at h
        exact absurd (by rw [← h.1]; exact List.mem_cons_self _ _) ha
    | cons y ys =>
      simp only [List.cons_append, List.cons.injEq] at h
      obtain ⟨t, ht⟩ := ih ys h.2 (fun hm => ha (List.mem_cons_of_mem _ hm))
      exact ⟨t, by rw [h.1, ht]; rfl⟩

theorem speakertagFindAllAux_tag (rest l : GoString) (h : speakertagLabel rest = some l) :
    speakertagFindAllAux true 0 ('【' :: rest) =
      l :: speakertagFindAllAux false (l.length + 1) rest := by
  simp [speakertagFindAllAux, h]

theorem speakertagFindAllAux_noTag (rest : GoString) (h : speakertagLabel rest = none) :
    speakertagFindAllAux true 0 ('【' :: rest) = speakertagFindAllAux false 0 rest := by
  simp [speakertagFindAllAux, h]

theorem speakertagFindAllAux_other (ls : Bool) (c : Char) (rest : GoString)
    (h : (ls && c == '【') = false) :
    speakertagFindAllAux ls 0 (c :: rest) = speakertagFindAllAux (c == '\n') 0 rest := by
  rw [speakertagFindAllAux]
  simp only [h]
  rfl

theorem speakertagReplaceAllAux_tag (rest l : GoString) (h : speakertagLabel rest = some l) :
    speakertagReplaceAllAux true 0 ('【' :: rest) =
      speakertagReplaceAllAux false (l.length + 1) rest := by
  simp [speakertagReplaceAllAux, h]

theorem speakertagReplaceAllAux_noTag (rest : GoString) (h : speakertagLabel rest = none) :
    speakertagReplaceAllAux true 0 ('【' :: rest) =
      '【' :: speakertagReplaceAllAux false 0 rest := by
  simp [speakertagReplaceAllAux, h]

theorem speakertagReplaceAllAux_other (ls : Bool) (c : Char) (rest : GoString)
    (h : (ls && c == '【') = false) :
    speakertagReplaceAllAux ls 0 (c :: rest) =
      c :: speakertagReplaceAllAux (c == '\n') 0 rest := by
  rw [speakertagReplaceAllAux]
  simp only [h]
  rfl

theorem speakertag_skip (n : Nat) (xs ys : GoString) (h : xs.length = n) :
    speakertagFindAllAux false n (xs ++ ys) = speakertagFindAllAux false 0 ys ∧
      speakertagReplaceAllAux false n (xs ++ ys) = speakertagReplaceAllAux false 0 ys := by
  induction xs generalizing n with
  | nil =>
    simp only [List.length_nil] at h
    subst h
    exact ⟨rfl, rfl⟩
  | cons x xs ih =>
    cases n with
    | zero => simp at h
    | succ k =>
      have hk : xs.length = k := by simpa using h
      obtain ⟨h1, h2⟩ := ih k hk
      constructor
      · rw [← h1]; rfl
      · rw [← h2]; rfl

theorem speakertag_within_line (u tl : GoString) (hu : '\n' ∉ u) :
    speakertagFindAllAux false 0 (u ++ tl) = speakertagFindAllAux false 0 tl ∧
      speakertagReplaceAllAux false 0 (u ++ tl) = u ++ speakertagReplaceAllAux false 0 tl := by
  induction u with
  | nil => exact ⟨rfl, rfl⟩
  | cons c u ih =>
    have hc : (c == '\n') = false := by
      simp only [beq_eq_false_iff_ne, ne_eq]
      intro e
      exact hu (by rw [e]; exact List.mem_cons_self _ _)
    obtain ⟨h1, h2⟩ := ih (fun hm => hu (List.mem_cons_of_mem _ hm))
    constructor
    · rw [List.cons_append, speakertagFindAllAux_other false c _ rfl, hc, h1]
    · rw [List.cons_append, speakertagReplaceAllAux_other false c _ rfl, hc, h2]
      rfl

theorem speakertag_line_end (more : GoString) :
    speakertagFindAllAux false 0 ('\n' :: more) = speakertagFindAllAux true 0 more ∧
      speakertagReplaceAllAux false 0 ('\n' :: more) =
        '\n' :: speakertagReplaceAllAux true 0 more := by
  constructor
  · rw [speakertagFindAllAux_other false _ _ rfl]; rfl
  · rw [speakertagReplaceAllAux_other false _ _ rfl]; rfl

theorem speakertag_line_start (tl : GoString) (htl : tl = [] ∨ ∃ more, tl = '\n' :: more) :
    speakertagFindAllAux true 0 tl = speakertagFindAllAux false 0 tl ∧
      speakertagReplaceAllAux true 0 tl = speakertagReplaceAllAux false 0 tl := by
  rcases htl with e | ⟨more, e⟩
  · rw [e]; exact ⟨rfl, rfl⟩
  · rw [e]
    have hne : (true && '\n' == '【') = false := by decide
    constructor
    · rw [speakertagFindAllAux_other true _ _ hne, speakertagFindAllAux_other false _ _ rfl]
    · rw [speakertagReplaceAllAux_other true _ _ hne,
        speakertagReplaceAllAux_other false _ _ rfl]

theorem speakertag_line (d : TaggedLine) (hd : d.Reads) (tl : GoString)
    (htl : tl = [] ∨ ∃ more, tl = '\n' :: more) :
    speakertagFindAllAux true 0 (d.line ++ tl) =
        d.tag.toList ++ speakertagFindAllAux false 0 tl ∧
      speakertagReplaceAllAux true 0 (d.line ++ tl) =
        d.text ++ speakertagReplaceAllAux false 0 tl := by
  obtain ⟨hnl, hcase⟩ := hd
  rcases hcase with ⟨label, htag, c, cs, hl, hcs, hline⟩ | ⟨htag, htext, hno⟩
  · -- the line starts with a tag
    have hc : c ≠ '\n' := by
      intro e
      apply hnl
      rw [hline, e]
      exact List.mem_cons_of_mem _ (List.mem_cons_self _ _)
    have hcsn : '\n' ∉ cs := by
      intro hm
      apply hnl
      rw [hline]
      exact List.mem_cons_of_mem _ (List.mem_cons_of_mem _ (List.mem_append_left _ hm))
    have htxt : '\n' ∉ d.text := by
      intro hm
      apply hnl
      rw [hline]
      exact List.mem_cons_of_mem _ (List.mem_cons_of_mem _
        (List.mem_append_right _ (List.mem_cons_of_mem _ hm)))
    have hlab : speakertagLabel (c :: cs ++ '】' :: (d.text ++ tl)) = some label :=
      (speakertagLabel_iff _ _).2 ⟨c, cs, d.text ++ tl, hl, rfl, hc, hcs, hcsn⟩
    have hshape : d.line ++ tl = '【' :: (c :: cs ++ '】' :: (d.text ++ tl)) := by
      rw [hline]; simp
    have hskip := speakertag_skip (label.length + 1) (label ++ ['】']) (d.text ++ tl)
      (by simp)
    have hrest : c :: cs ++ '】' :: (d.text ++ tl) = (label ++ ['】']) ++ (d.text ++ tl) := by
      rw [hl]; simp
    obtain ⟨hw1, hw2⟩ := speakertag_within_line d.text tl htxt
    rw [hshape, htag]
    constructor
    · rw [speakertagFindAllAux_tag _ label hlab, hrest, hskip.1, hw1]
      rfl
    · rw [speakertagReplaceAllAux_tag _ label hlab, hrest, hskip.2, hw2]
  · -- the line starts with no tag
    rw [htag, htext]
    cases hline : d.line with
    | nil =>
      simp only [List.nil_append, Option.toList]
      exact speakertag_line_start tl htl
    | cons c u =>
      rw [hline] at hnl
      have hu : '\n' ∉ u := fun hm => hnl (List.mem_cons_of_mem _ hm)
      have hc : (c == '\n') = false := by
        simp only [beq_eq_false_iff_ne, ne_eq]
        intro e
        exact hnl (by rw [e]; exact List.mem_cons_self _ _)
      obtain ⟨hw1, hw2⟩ := speakertag_within_line u tl hu
      by_cases hopen : c = '【'
      · have hlab : speakertagLabel (u ++ tl) = none := by
          cases hr : speakertagLabel (u ++ tl) with
          | none => rfl
          | some l =>
            exfalso
            obtain ⟨c1, cs, tail, hl, hs, hc1, hcs, hcsn⟩ := (speakertagLabel_iff _ _).1 hr
            have ha : '\n' ∉ c1 :: cs ++ ['】'] := by
              intro hm
              simp only [List.cons_append, List.mem_cons, List.mem_append,
                List.mem_singleton] at hm
              rcases hm with e | e | e
              · exact hc1 e.symm
              · exact hcsn e
              · exact absurd e (by decide)
            obtain ⟨t, ht⟩ := prefix_of_line (c1 :: cs ++ ['】']) tail u tl
              (by rw [hs]; simp) ha htl
            apply hno (c1 :: cs) t
            refine ⟨c1, cs, rfl, hcs, ?_⟩
            rw [hline, hopen, ht]
            simp
        rw [hopen]
        constructor
        · rw [List.cons_append, speakertagFindAllAux_noTag _ hlab, hw1]
          rfl
        · rw [List.cons_append, speakertagReplaceAllAux_noTag _ hlab, hw2]
          rfl
      · have hb : (true && c == '【') = false := by simpa using hopen
        constructor
        · rw [List.cons_append, speakertagFindAllAux_other true c _ hb, hc, hw1]
          rfl
        · rw [List.cons_append, speakertagReplaceAllAux_other true c _ hb, hc, hw2]
          rfl

/-- What the two calls of `speakertag` compute, line by line: on a text made of lines, each
read as `TaggedLine.Reads` says, `FindAllStringSubmatch` returns the labels of the lines that
start with a tag, in order, and `ReplaceAllString` returns the lines without their tags. -/
theorem speakertag_lines (ds : List TaggedLine) (hne : ds ≠ []) (h : ∀ d ∈ ds, d.Reads) :
    speakertagFindAll (joinWith ['\n'] (ds.map (fun d => d.line))) =
        ds.filterMap (fun d => d.tag) ∧
      speakertagReplaceAll (joinWith ['\n'] (ds.map (fun d => d.line))) =
        joinWith ['\n'] (ds.map (fun d => d.text)) := by
  unfold speakertagFindAll speakertagReplaceAll
  induction ds with
  | nil => exact absurd rfl hne
  | cons d rest ih =>
    have hd := h d (List.mem_cons_self _ _)
    cases rest with
    | nil =>
      obtain ⟨h1, h2⟩ := speakertag_line d hd [] (Or.inl rfl)
      simp only [List.append_nil] at h1 h2
      constructor
      · simp only [List.map_cons, List.map_nil, joinWith]
        rw [h1]
        cases ht : d.tag <;> simp [List.filterMap_cons, ht, speakertagFindAllAux]
      · simp only [List.map_cons, List.map_nil, joinWith]
        rw [h2]
        simp [speakertagReplaceAllAux]
    | cons d2 rest2 =>
      obtain ⟨ih1, ih2⟩ := ih (by simp) (fun x hx => h x (List.mem_cons_of_mem _ hx))
      obtain ⟨h1, h2⟩ := speakertag_line d hd
        ('\n' :: joinWith ['\n'] ((d2 :: rest2).map (fun d => d.line))) (Or.inr ⟨_, rfl⟩)
      obtain ⟨e1, e2⟩ := speakertag_line_end (joinWith ['\n'] ((d2 :: rest2).map (fun d => d.line)))
      have hj : joinWith ['\n'] ((d :: d2 :: rest2).map (fun d => d.line)) =
          d.line ++ '\n' :: joinWith ['\n'] ((d2 :: rest2).map (fun d => d.line)) := by
        simp [joinWith]
      have hjt : joinWith ['\n'] ((d :: d2 :: rest2).map (fun d => d.text)) =
          d.text ++ '\n' :: joinWith ['\n'] ((d2 :: rest2).map (fun d => d.text)) := by
        simp [joinWith]
      constructor
      · rw [hj, h1, e1, ih1]
        cases ht : d.tag <;> simp [List.filterMap_cons, ht]
      · rw [hj, h2, e2, ih2, hjt]

theorem brtagSplitAux_skip (k : Nat) (cur xs ys : GoString) (h : xs.length = k) :
    brtagSplitAux k cur (xs ++ ys) = brtagSplitAux 0 cur ys := by
  induction xs generalizing k with
  | nil =>
    simp only [List.length_nil] at h
    subst h
    rfl
  | cons x xs ih =>
    cases k with
    | zero => simp at h
    | succ k =>
      have hk : xs.length = k := by simpa using h
      rw [← ih k hk]
      rfl

theorem brtagSplitAux_match (cur t : GoString) :
    brtagSplitAux 0 cur (brtagText ++ t) = cur.reverse :: brtagSplitAux 0 [] t := by
  have h4 := brtagSplitAux_skip 4 [] ['b', 'r', '/', '>'] t rfl
  rw [← h4]
  simp [brtagText, brtagSplitAux, List.isPrefixOf]

theorem brtagSplitAux_noMatch (cur : GoString) (c : Char) (rest : GoString)
    (h : brtagText.isPrefixOf (c :: rest) = false) :
    brtagSplitAux 0 cur (c :: rest) = brtagSplitAux 0 (c :: cur) rest := by
  rw [brtagSplitAux]
  simp only [h]
  rfl

theorem brtagSplitAux_ne_nil (k : Nat) (cur s : GoString) : brtagSplitAux k cur s ≠ [] := by
  induction s generalizing k cur with
  | nil => simp [brtagSplitAux]
  | cons c rest ih =>
    cases k with
    | succ k => rw [brtagSplitAux]; exact ih k cur
    | zero =>
      by_cases h : brtagText.isPrefixOf (c :: rest) = true
      · rw [brtagSplitAux]; simp [h]
      · rw [brtagSplitAux_noMatch cur c rest (Bool.eq_false_iff.2 h)]
        exact ih 0 (c :: cur)

theorem joinWith_cons (sep a : GoString) (l : List GoString) (h : l ≠ []) :
    joinWith sep (a :: l) = a ++ sep ++ joinWith sep l := by
  cases l with
  | nil => exact absurd rfl h
  | cons b rest => rfl

theorem brtagSplitAux_join (n : Nat) :
    ∀ s : GoString, s.length ≤ n → ∀ cur : GoString,
      joinWith brtagText (brtagSplitAux 0 cur s) = cur.reverse ++ s := by
  induction n with
  | zero =>
    intro s hs cur
    have : s = [] := List.length_eq_zero.1 (Nat.le_zero.1 hs)
    subst this
    simp [brtagSplitAux, joinWith]
  | succ n ih =>
    intro s hs cur
    cases s with
    | nil => simp [brtagSplitAux, joinWith]
    | cons c rest =>
      by_cases h : brtagText.isPrefixOf (c :: rest) = true
      · obtain ⟨t, ht⟩ := List.isPrefixOf_iff_prefix.1 h
        have hlen : t.length ≤ n := by
          have := congrArg List.length ht
          simp [brtagText] at this
          simp only [List.length_cons] at hs
          omega
        rw [← ht, brtagSplitAux_match,
          joinWith_cons _ _ _ (brtagSplitAux_ne_nil 0 [] t), ih t hlen []]
        simp
      · have hrest : rest.length ≤ n := by
          simp only [List.length_cons] at hs
          omega
        rw [brtagSplitAux_noMatch cur c rest (Bool.eq_false_iff.2 h), ih rest hrest (c :: cur)]
        simp

theorem brtagSplitAux_pieces (n : Nat) :
    ∀ s : GoString, s.length ≤ n → ∀ cur : GoString,
      (∀ k, k < cur.length → brtagText.isPrefixOf ((cur.take (k + 1)).reverse ++ s) = false) →
      ∀ e ∈ brtagSplitAux 0 cur s, ¬ brtagText <:+: e := by
  have hpiece : ∀ (cur s : GoString),
      (∀ k, k < cur.length → brtagText.isPrefixOf ((cur.take (k + 1)).reverse ++ s) = false) →
      (s = [] ∨ brtagText.isPrefixOf s = true) → ¬ brtagText <:+: cur.reverse := by
    intro cur s hinv hs hinf
    obtain ⟨a, b, hab⟩ := hinf
    have hcur : cur = (brtagText ++ b).reverse ++ a.reverse := by
      have := congrArg List.reverse hab
      simp only [List.reverse_append, List.reverse_reverse] at this
      rw [← this]
      simp
    have hk : b.length + 4 < cur.length := by
      rw [hcur]; simp [brtagText]
    have htake : (cur.take (b.length + 4 + 1)).reverse = brtagText ++ b := by
      have hl : (brtagText ++ b).reverse.length = b.length + 4 + 1 := by
        simp [brtagText]
      rw [hcur, ← hl, List.take_left, List.reverse_reverse]
    have := hinv (b.length + 4) hk
    rw [htake] at this
    have htrue : brtagText.isPrefixOf (brtagText ++ b ++ s) = true :=
      List.isPrefixOf_iff_prefix.2 ⟨b ++ s, by simp⟩
    rw [htrue] at this
    cases this
  induction n with
  | zero =>
    intro s hs cur hinv e he
    have : s = [] := List.length_eq_zero.1 (Nat.le_zero.1 hs)
    subst this
    simp only [brtagSplitAux, List.mem_singleton] at he
    rw [he]
    exact hpiece cur [] hinv (Or.inl rfl)
  | succ n ih =>
    intro s hs cur hinv e he
    cases s with
    | nil =>
      simp only [brtagSplitAux, List.mem_singleton] at he
      rw [he]
      exact hpiece cur [] hinv (Or.inl rfl)
    | cons c rest =>
      by_cases h : brtagText.isPrefixOf (c :: rest) = true
      · obtain ⟨t, ht⟩ := List.isPrefixOf_iff_prefix.1 h
        have hlen : t.length ≤ n := by
          have := congrArg List.length ht
          simp [brtagText] at this
          simp only [List.length_cons] at hs
          omega
        rw [← ht, brtagSplitAux_match] at he
        rcases List.mem_cons.1 he with h1 | h1
        · rw [h1]
          exact hpiece cur (c :: rest) hinv (Or.inr h)
        · exact ih t hlen [] (fun k hk => by simp at hk) e h1
      · have hrest : rest.length ≤ n := by
          simp only [List.length_cons] at hs
          omega
        have hf : brtagText.isPrefixOf (c :: rest) = false := Bool.eq_false_iff.2 h
        rw [brtagSplitAux_noMatch cur c rest hf] at he
        refine ih rest hrest (c :: cur) ?_ e he
        intro k hk
        cases k with
        | zero => simpa using hf
        | succ k =>
          have hk2 : k < cur.length := by
            simp only [List.length_cons] at hk
            omega
          have := hinv k hk2
          simpa [List.take_succ_cons, List.reverse_cons, List.append_assoc] using this

/-- What `brtag.Split` computes: the pieces joined with the line-break marker between them
give back the text, and no piece holds a line-break marker. -/
theorem brtagSplit_spec (html : GoString) :
    joinWith brtagText (brtagSplit html) = html ∧
      ∀ e ∈ brtagSplit html, ¬ brtagText <:+: e := by
  constructor
  · have := brtagSplitAux_join html.length html (Nat.le_refl _) []
    simpa using this
  · exact brtagSplitAux_pieces html.length html (Nat.le_refl _) []
      (fun k hk => by simp at hk)

theorem brtag_no_prefix (c : Char) (r tl : GoString) (hr : ¬ brtagText <:+: (c :: r))
    (htl : tl = [] ∨ ∃ t, tl = brtagText ++ t) :
    brtagText.isPrefixOf (c :: r ++ tl) = false := by
  rcases r with _ | ⟨x2, _ | ⟨x3, _ | ⟨x4, _ | ⟨x5, r2⟩⟩⟩⟩
  · rcases htl with e | ⟨t, e⟩ <;> rw [e] <;> simp [brtagText, List.isPrefixOf]
  · rcases htl with e | ⟨t, e⟩ <;> rw [e] <;> simp [brtagText, List.isPrefixOf]
  · rcases htl with e | ⟨t, e⟩ <;> rw [e] <;> simp [brtagText, List.isPrefixOf]
  · rcases htl with e | ⟨t, e⟩ <;> rw [e] <;> simp [brtagText, List.isPrefixOf]
  · apply Bool.eq_false_iff.2
    intro h
    apply hr
    obtain ⟨u, hu⟩ := List.isPrefixOf_iff_prefix.1 h
    simp only [brtagText, List.cons_append, List.nil_append, List.cons.injEq] at hu
    obtain ⟨h1, h2, h3, h4, h5, -⟩ := hu
    exact ⟨[], r2, by rw [← h1, ← h2, ← h3, ← h4, ← h5]; rfl⟩

theorem brtagSplitAux_piece (r cur tl : GoString) (hr : ¬ brtagText <:+: r)
    (htl : tl = [] ∨ ∃ t, tl = brtagText ++ t) :
    brtagSplitAux 0 cur (r ++ tl) = brtagSplitAux 0 (r.reverse ++ cur) tl := by
  induction r generalizing cur with
  | nil => rfl
  | cons c r ih =>
    have hr2 : ¬ brtagText <:+: r := fun h => hr (h.trans (List.suffix_cons c r).isInfix)
    have hp := brtag_no_prefix c r tl hr htl
    rw [List.cons_append] at hp
    rw [List.cons_append, brtagSplitAux_noMatch cur c _ hp, ih (c :: cur) hr2]
    simp

/-- The pieces `brtag.Split` returns for pieces joined with the line-break marker are those
pieces, when none of them holds a line-break marker. -/
theorem brtagSplit_joinWith (raws : List GoString) (hne : raws ≠ [])
    (h : ∀ r ∈ raws, ¬ brtagText <:+: r) : brtagSplit (joinWith brtagText raws) = raws := by
  unfold brtagSplit
  induction raws with
  | nil => exact absurd rfl hne
  | cons r rest ih =>
    have hr := h r (List.mem_cons_self _ _)
    cases rest with
    | nil =>
      have := brtagSplitAux_piece r [] [] hr (Or.inl rfl)
      simp only [List.append_nil] at this
      simp [joinWith, this, brtagSplitAux]
    | cons r2 rest2 =>
      have ih2 := ih (by simp) (fun x hx => h x (List.mem_cons_of_mem _ hx))
      have hj : joinWith brtagText (r :: r2 :: rest2) =
          r ++ (brtagText ++ joinWith brtagText (r2 :: rest2)) := by
        simp [joinWith]
      rw [hj, brtagSplitAux_piece r [] _ hr (Or.inr ⟨_, rfl⟩), brtagSplitAux_match, ih2]
      simp

theorem isSpace_iff (c : Char) : isSpace c = true ↔ c.toNat ∈ whiteSpaceCodePoints := by
  unfold isSpace whiteSpaceCodePoints
  simp only [Bool.or_eq_true, Bool.and_eq_true, decide_eq_true_eq, beq_iff_eq, List.mem_cons,
    List.mem_singleton, List.not_mem_nil, or_false]
  omega

theorem dropWhile_append_of_all {α : Type} (p : α → Bool) (l x : List α)
    (h : ∀ c ∈ l, p c = true) : (l ++ x).dropWhile p = x.dropWhile p := by
  induction l with
  | nil => rfl
  | cons a l ih =>
    rw [List.cons_append, List.dropWhile_cons, h a (List.mem_cons_self _ _)]
    exact ih (fun c hc => h c (List.mem_cons_of_mem _ hc))

theorem dropWhile_of_all {α : Type} (p : α → Bool) (l : List α)
    (h : ∀ c ∈ l, p c = true) : l.dropWhile p = [] := by
  have := dropWhile_append_of_all p l [] h
  simpa using this

theorem dropWhile_of_head {α : Type} (p : α → Bool) (x : List α)
    (h : ∀ c, x.head? = some c → p c = false) : x.dropWhile p = x := by
  cases x with
  | nil => rfl
  | cons a l => rw [List.dropWhile_cons, h a rfl]; rfl

/-- What `strings.TrimSpace` computes: for a text between two runs of white space, one that
neither starts nor ends with white space, it returns that text. -/
theorem TrimSpace_spec (l core r : GoString)
    (hl : ∀ c ∈ l, c.toNat ∈ whiteSpaceCodePoints)
    (hr : ∀ c ∈ r, c.toNat ∈ whiteSpaceCodePoints) (hcore : Trimmed core) :
    TrimSpace (l ++ core ++ r) = core := by
  have hl2 : ∀ c ∈ l, isSpace c = true := fun c hc => (isSpace_iff c).2 (hl c hc)
  have hr2 : ∀ c ∈ r.reverse, isSpace c = true :=
    fun c hc => (isSpace_iff c).2 (hr c (List.mem_reverse.1 hc))
  have hhead : ∀ c, (core ++ r).head? = some c → core ≠ [] → isSpace c = false := by
    intro c hc hne
    cases core with
    | nil => exact absurd rfl hne
    | cons a cs =>
      simp only [List.cons_append, List.head?_cons, Option.some.injEq] at hc
      have := hcore.1 a rfl
      rw [← hc]
      exact Bool.eq_false_iff.2 (fun e => this ((isSpace_iff a).1 e))
  unfold TrimSpace
  rw [List.append_assoc, dropWhile_append_of_all isSpace l _ hl2]
  by_cases hne : core = []
  · subst hne
    rw [List.nil_append, dropWhile_of_all isSpace r (fun c hc => (isSpace_iff c).2 (hr c hc))]
    rfl
  · rw [dropWhile_of_head isSpace (core ++ r) (fun c hc => hhead c hc hne),
      List.reverse_append, dropWhile_append_of_all isSpace r.reverse _ hr2,
      dropWhile_of_head isSpace core.reverse, List.reverse_reverse]
    intro c hc
    rw [List.head?_reverse] at hc
    have := hcore.2 c hc
    exact Bool.eq_false_iff.2 (fun e => this ((isSpace_iff c).1 e))

/-- What the tag detection and the tag stripping of `ParseMinutesFromFile` compute on an
element: with the white space around it set aside and the rest read line by line, the
detected label is that of the first line that starts with a tag, and the text is the lines
without their tags. -/
theorem element_reading (s l core r : GoString) (ds : List TaggedLine)
    (hs : s = l ++ core ++ r)
    (hl : ∀ c ∈ l, c.toNat ∈ whiteSpaceCodePoints)
    (hr : ∀ c ∈ r, c.toNat ∈ whiteSpaceCodePoints) (hcore : Trimmed core)
    (hne : ds ≠ []) (hds : ∀ d ∈ ds, d.Reads)
    (hlines : core = joinWith ['\n'] (ds.map (fun d => d.line))) :
    elementTag s = (ds.filterMap (fun d => d.tag)).head? ∧
      fileTalk s = joinWith ['\n'] (ds.map (fun d => d.text)) ∧
      pdfTalk s = reptagReplaceAll (joinWith ['\n'] (ds.map (fun d => d.text))) := by
  have ht : TrimSpace s = joinWith ['\n'] (ds.map (fun d => d.line)) := by
    rw [hs, TrimSpace_spec l core r hl hr hcore, hlines]
  obtain ⟨h1, h2⟩ := speakertag_lines ds hne hds
  unfold elementTag fileTalk pdfTalk
  rw [ht, h1, h2]
  exact ⟨rfl, rfl, rfl⟩

theorem lines_exist (core : GoString) :
    ∃ lines : List GoString, lines ≠ [] ∧ (∀ x ∈ lines, '\n' ∉ x) ∧
      core = joinWith ['\n'] lines := by
  induction core with
  | nil => exact ⟨[[]], by simp, by simp, rfl⟩
  | cons c cs ih =>
    obtain ⟨lines, hne, hno, hj⟩ := ih
    cases lines with
    | nil => exact absurd rfl hne
    | cons a rest =>
      by_cases hc : c = '\n'
      · refine ⟨[] :: a :: rest, by simp, ?_, ?_⟩
        · intro x hx
          rcases List.mem_cons.1 hx with e | hx
          · rw [e]; simp
          · exact hno x hx
        · rw [hc, hj]; simp [joinWith]
      · refine ⟨(c :: a) :: rest, by simp, ?_, ?_⟩
        · intro x hx
          rcases List.mem_cons.1 hx with e | hx
          · rw [e]
            intro hm
            rcases List.mem_cons.1 hm with e2 | hm
            · exact hc e2.symm
            · exact hno a (List.mem_cons_self _ _) hm
          · exact hno x (List.mem_cons_of_mem _ hx)
        · rw [hj]
          cases rest with
          | nil => simp [joinWith]
          | cons b rest2 => simp [joinWith]

theorem readings_exist (lines : List GoString) (h : ∀ x ∈ lines, '\n' ∉ x) :
    ∃ ds : List TaggedLine, ds.map (fun d => d.line) = lines ∧ ∀ d ∈ ds, d.Reads := by
  induction lines with
  | nil => exact ⟨[], rfl, by simp⟩
  | cons x rest ih =>
    obtain ⟨ds, hmap, hds⟩ := ih (fun y hy => h y (List.mem_cons_of_mem _ hy))
    have hx := h x (List.mem_cons_self _ _)
    by_cases ht : ∃ label text, TagAt x label text
    · obtain ⟨label, text, ht⟩ := ht
      refine ⟨⟨x, some label, text⟩ :: ds, by simp [hmap], ?_⟩
      intro d hd
      rcases List.mem_cons.1 hd with e | hd
      · rw [e]; exact ⟨hx, Or.inl ⟨label, rfl, ht⟩⟩
      · exact hds d hd
    · refine ⟨⟨x, none, x⟩ :: ds, by simp [hmap], ?_⟩
      intro d hd
      rcases List.mem_cons.1 hd with e | hd
      · rw [e]
        exact ⟨hx, Or.inr ⟨rfl, rfl, fun label text h2 => ht ⟨label, text, h2⟩⟩⟩
      · exact hds d hd

theorem takeWhile_all {α : Type} (p : α → Bool) (l : List α) :
    ∀ c ∈ l.takeWhile p, p c = true := by
  intro c hc
  induction l with
  | nil => simp at hc
  | cons a l ih =>
    rw [List.takeWhile_cons] at hc
    by_cases ha : p a = true
    · rw [if_pos ha] at hc
      rcases List.mem_cons.1 hc with e | hc
      · rw [e]; exact ha
      · exact ih hc
    · rw [if_neg ha] at hc
      simp at hc

theorem dropWhile_head {α : Type} (p : α → Bool) (l : List α) (c : α)
    (h : (l.dropWhile p).head? = some c) : p c = false := by
  induction l with
  | nil => simp at h
  | cons a l ih =>
    rw [List.dropWhile_cons] at h
    by_cases ha : p a = true
    · rw [if_pos ha] at h; exact ih h
    · rw [if_neg ha] at h
      simp only [List.head?_cons, Option.some.injEq] at h
      rw [← h]; exact Bool.eq_false_iff.2 ha

/-- Every text is a run of white space, a text with white space at neither end, and a run of
white space. -/
theorem trim_exists (s : GoString) :
    ∃ l core r : GoString, s = l ++ core ++ r ∧
      (∀ c ∈ l, c.toNat ∈ whiteSpaceCodePoints) ∧
      (∀ c ∈ r, c.toNat ∈ whiteSpaceCodePoints) ∧ Trimmed core := by
  have h1 : s = s.takeWhile isSpace ++ s.dropWhile isSpace :=
    (List.takeWhile_append_dropWhile isSpace s).symm
  have h2 : (s.dropWhile isSpace).reverse =
      (s.dropWhile isSpace).reverse.takeWhile isSpace ++
        (s.dropWhile isSpace).reverse.dropWhile isSpace :=
    (List.takeWhile_append_dropWhile isSpace _).symm
  have h3 : s.dropWhile isSpace =
      ((s.dropWhile isSpace).reverse.dropWhile isSpace).reverse ++
        ((s.dropWhile isSpace).reverse.takeWhile isSpace).reverse := by
    have := congrArg List.reverse h2
    rw [List.reverse_reverse, List.reverse_append] at this
    exact this
  refine ⟨s.takeWhile isSpace, ((s.dropWhile isSpace).reverse.dropWhile isSpace).reverse,
    ((s.dropWhile isSpace).reverse.takeWhile isSpace).reverse, ?_, ?_, ?_, ?_, ?_⟩
  · rw [List.append_assoc, ← h3]; exact h1
  · intro c hc
    exact (isSpace_iff c).1 (takeWhile_all isSpace s c hc)
  · intro c hc
    exact (isSpace_iff c).1 (takeWhile_all isSpace _ c (List.mem_reverse.1 hc))
  · intro c hc hw
    have hsp := (isSpace_iff c).2 hw
    have hhead : (s.dropWhile isSpace).head? = some c := by
      rw [h3]
      cases hcore : ((s.dropWhile isSpace).reverse.dropWhile isSpace).reverse with
      | nil => rw [hcore] at hc; simp at hc
      | cons a t =>
        rw [hcore] at hc
        simpa using hc
    have := dropWhile_head isSpace s c hhead
    rw [hsp] at this
    cases this
  · intro c hc hw
    have hsp := (isSpace_iff c).2 hw
    rw [List.getLast?_reverse] at hc
    have := dropWhile_head isSpace _ c hc
    rw [hsp] at this
    cases this

/-- Every element has a reading: white space around a text with white space at neither end,
which is the join of lines without a newline, each read as starting with a tag or not. -/
theorem element_reading_exists (s : GoString) :
    ∃ (l core r : GoString) (ds : List TaggedLine), s = l ++ core ++ r ∧
      (∀ c ∈ l, c.toNat ∈ whiteSpaceCodePoints) ∧
      (∀ c ∈ r, c.toNat ∈ whiteSpaceCodePoints) ∧ Trimmed core ∧
      ds ≠ [] ∧ (∀ d ∈ ds, d.Reads) ∧ core = joinWith ['\n'] (ds.map (fun d => d.line)) := by
  obtain ⟨l, core, r, hs, hl, hr, hcore⟩ := trim_exists s
  obtain ⟨lines, hne, hno, hj⟩ := lines_exist core
  obtain ⟨ds, hmap, hds⟩ := readings_exist lines hno
  refine ⟨l, core, r, ds, hs, hl, hr, hcore, ?_, hds, ?_⟩
  · intro e
    rw [e] at hmap
    exact hne hmap.symm
  · rw [hmap]; exact hj

/-- C1. Direct-HTML segmenter (`ParseMinutesFromFile`), for every document.
What the elements are: a paragraph is its elements joined with the line-break marker and no
element holds a marker, and texts without a marker joined with it are split into those texts.
What the tag and the text of an element are: every element is white space around a text
without white space at its ends, made of lines that each start with a tag `【label】` or do
not; for every such reading the tag of the element is the label of the first line that starts
with a tag and the tag-stripped text is the lines without their tags.
The result: the utterances of the returned speeches, concatenated in speech order, are exactly
the non-empty tag-stripped texts of the elements in document order; the speeches are the groups
of elements cut at the tagged elements (a first group without a speaker for what precedes the
first tag, then one group per tagged element, holding its utterance and those of the untagged
elements after it), each under the speaker stored for the label of its opening tag, without
the groups that have no utterance, the last one apart. -/
theorem ParseMinutesFromFile_utterances (fileName : GoString) (doc : HtmlFile) :
    ((∀ html, joinWith brtagText (brtagSplit html) = html ∧
        ∀ e ∈ brtagSplit html, ¬ brtagText <:+: e) ∧
      (∀ raws, raws ≠ [] → (∀ r ∈ raws, ¬ brtagText <:+: r) →
        brtagSplit (joinWith brtagText raws) = raws)) ∧
    ((∀ s, ∃ (l core r : GoString) (ds : List TaggedLine), s = l ++ core ++ r ∧
        (∀ c ∈ l, c.toNat ∈ whiteSpaceCodePoints) ∧
        (∀ c ∈ r, c.toNat ∈ whiteSpaceCodePoints) ∧ Trimmed core ∧
        ds ≠ [] ∧ (∀ d ∈ ds, d.Reads) ∧ core = joinWith ['\n'] (ds.map (fun d => d.line))) ∧
      (∀ (s l core r : GoString) (ds : List TaggedLine), s = l ++ core ++ r →
        (∀ c ∈ l, c.toNat ∈ whiteSpaceCodePoints) →
        (∀ c ∈ r, c.toNat ∈ whiteSpaceCodePoints) → Trimmed core →
        ds ≠ [] → (∀ d ∈ ds, d.Reads) → core = joinWith ['\n'] (ds.map (fun d => d.line)) →
        elementTag s = (ds.filterMap (fun d => d.tag)).head? ∧
          fileTalk s = joinWith ['\n'] (ds.map (fun d => d.text)))) ∧
    ((ParseMinutesFromFile fileName doc).1.Speaches.flatMap Speach.Talks =
        ((elementsOf doc.paragraphs).map fileTalk).filter (fun t => decide (0 < t.length))) ∧
    ((ParseMinutesFromFile fileName doc).1.Speaches =
        dropEmptyButLast
          (⟨none, (tagGroups (elementsOf doc.paragraphs)).1⟩ ::
            (tagGroups (elementsOf doc.paragraphs)).2.map
              (fun g => ⟨(ParseMinutesFromFile fileName doc).1.Speakers.get g.1, g.2⟩))) ∧
    (∀ g ∈ (tagGroups (elementsOf doc.paragraphs)).2,
        ∃ p, (ParseMinutesFromFile fileName doc).1.Speakers.get g.1 = some p ∧
          (ParseMinutesFromFile fileName doc).2[p]? = some (Speaker.new g.1)) := by
  refine ⟨⟨brtagSplit_spec, brtagSplit_joinWith⟩, ⟨element_reading_exists, ?_⟩,
    ParseMinutesFromFile_segmentation fileName doc⟩
  intro s l core r ds hs hl hr hcore hne hds hlines
  obtain ⟨h1, h2, -⟩ := element_reading s l core r ds hs hl hr hcore hne hds hlines
  exact ⟨h1, h2⟩

/-- The witness of C1, the example of the specification: the paragraphs `【議長】おはよう`,
a line break, `ございます。` and `【委員A】了解` have three elements; the first reads as the
tag `議長` and the text `おはよう`; the utterances are `おはよう`, `ございます。` and `了解`, in
two speeches, of `議長` with the first two and of `委員A` with the third. -/
theorem ParseMinutesFromFile_utterances_witness :
    elementsOf greetingHtml.paragraphs =
        ["【議長】おはよう".toList, "ございます。".toList, "【委員A】了解".toList] ∧
    (elementTag "【議長】おはよう".toList = some "議長".toList ∧
      fileTalk "【議長】おはよう".toList = "おはよう".toList) ∧
    (ParseMinutesFromFile "no01wg057-1.html".toList greetingHtml).1.Speaches.flatMap Speach.Talks =
        ["おはよう".toList, "ございます。".toList, "了解".toList] ∧
    (ParseMinutesFromFile "no01wg057-1.html".toList greetingHtml).1.Speaches =
        [⟨some 0, ["おはよう".toList, "ございます。".toList]⟩, ⟨some 1, ["了解".toList]⟩] ∧
    (ParseMinutesFromFile "no01wg057-1.html".toList greetingHtml).2 =
        [Speaker.new "議長".toList, Speaker.new "委員A".toList] :=
  ⟨congrArg (fun x => x ++ brtagSplit "【委員A】了解".toList)
      ((ParseMinutesFromFile_utterances "no01wg057-1.html".toList greetingHtml).1.2
        ["【議長】おはよう".toList, "ございます。".toList] (by simp)
        (by
          intro r hr
          rcases List.mem_cons.1 hr with e | hr
          · rw [e]; decide
          · rw [List.mem_singleton.1 hr]; decide)),
    (ParseMinutesFromFile_utterances "no01wg057-1.html".toList greetingHtml).2.1.2
      "【議長】おはよう".toList [] "【議長】おはよう".toList []
      [⟨"【議長】おはよう".toList, some "議長".toList, "おはよう".toList⟩] rfl
      (by simp) (by simp)
      ⟨fun c h => by cases h; decide, fun c h => by cases h; decide⟩ (by simp)
      (by
        intro d hd
        rw [List.mem_singleton.1 hd]
        exact ⟨by decide, Or.inl ⟨_, rfl, '議', ['長'], rfl, by decide, rfl⟩⟩)
      rfl,
    (ParseMinutesFromFile_utterances "no01wg057-1.html".toList greetingHtml).2.2.1.trans
      (by decide),
    by rfl, by rfl⟩

/-- C7, at the failing input: for an element of the two lines `【C】c` and `【D】d`, which
both start with a speaker tag, the tag pattern matches the tags `C` and `D` and the replacement
strips both, but only `C` becomes a key of `Minutes.Speakers`, in both segmenters, and the text
of the line tagged `D` ends up in the utterance of `C`. -/
theorem Speakers_misses_later_tag :
    (TagAt "【C】c".toList "C".toList "c".toList ∧ TagAt "【D】d".toList "D".toList "d".toList) ∧
    (speakertagFindAll "【C】c\n【D】d".toList = ["C".toList, "D".toList] ∧
      speakertagReplaceAll "【C】c\n【D】d".toList = "c\nd".toList) ∧
    ((ParseMinutesFromFile [] twoTagsHtml).1.Speakers.keys = ["C".toList] ∧
      (ParseMinutesFromFile [] twoTagsHtml).1.Speaches = [⟨some 0, ["c\nd".toList]⟩] ∧
      (ParseMinutesFromFile [] twoTagsHtml).2 = [Speaker.new "C".toList]) ∧
    ((ParseMinutesFromPDF2Html [] twoTagsPdf).1.Speakers.keys = ["C".toList] ∧
      (ParseMinutesFromPDF2Html [] twoTagsPdf).1.Speaches = [⟨some 0, ["c。\nd。".toList]⟩] ∧
      (ParseMinutesFromPDF2Html [] twoTagsPdf).2 = [Speaker.new "C".toList]) :=
  ⟨⟨⟨'C', [], rfl, by simp, rfl⟩, ⟨'D', [], rfl, by simp, rfl⟩⟩,
    ⟨by rfl, by rfl⟩, ⟨by rfl, by rfl, by rfl⟩, ⟨by rfl, by rfl, by rfl⟩⟩

end Meroku
